import Mathlib

/-!
# fmwav: capture buffer, FM demodulator and WAV encoder

A shallow embedding of `src/fmwav.c` and the properties proved about it.

Conventions of the embedding
* C `int` values are `Int`; an `unsigned char` is a `Nat` (its value).
* Memory reached through a pointer (`iq->buf`, `samples`) is a total function
  from the index to the stored value; the indices a loop reads or writes are
  recorded in ghost traces, so that bounds can be stated about them.
* `float`/`double` values are rationals. Each floating-point operation is the
  exact operation followed by the rounding of the environment (`FloatEnv`);
  `atan2f` comes from libm and is a field of the environment too. What is
  proved of the float program assumes only laws that IEEE 754 rounding to
  nearest obeys (`ieee_env_sound`, `ieee_env_accurate`).
* The conversion `(int16_t) x` of a `float` is the one of the x86-64 build
  (`float_to_int16`); ISO C leaves it undefined out of range.
-/

namespace Fmwav

/-! ## Constants (fmwav.c, lines 8-12) -/

def DEFAULT_LEN_SECS : Int := 30
def WAV_SAMPLE_RATE : Int := 44100
def DECIMATION_FACTOR : Int := 32
def SDR_SAMPLE_RATE : Int := DECIMATION_FACTOR * WAV_SAMPLE_RATE
def FREQ_DEVIATION : Int := 75000

/-! ## Memory -/

/-- The assignment `m[k] = v` on a memory `m`. -/
def store {α : Type} (m : Int → α) (k : Int) (v : α) : Int → α :=
  fun j => if j = k then v else m j

/-! ## The capture buffer (fmwav.c, lines 16-20 and 47-56) -/

/-- The struct `IQ_DATA`: the byte storage `buf`, its capacity `len` and the
write cursor `i`. -/
structure IQ_DATA where
  buf : Int → Nat
  len : Int
  i : Int

/-- The loop of `rtlsdr_cb` over the bytes of the delivered chunk, the guard
`iq->i >= iq->len` before each store. The Boolean of the result tells whether
`rtlsdr_cancel_async(DEVICE)` was called, which is followed by `return`. -/
def rtlsdr_cb_loop : List Nat → IQ_DATA → IQ_DATA × Bool
  | [], iq => (iq, false)
  | b :: rest, iq =>
    if iq.i ≥ iq.len then (iq, true)
    else rtlsdr_cb_loop rest { iq with buf := store iq.buf iq.i b, i := iq.i + 1 }

/-- The callback `rtlsdr_cb(iq_buf, len, ctx)`: `iq_buf` is the chunk of `len`
bytes and `ctx` the `IQ_DATA`. -/
def rtlsdr_cb (iq_buf : List Nat) (iq : IQ_DATA) : IQ_DATA × Bool :=
  rtlsdr_cb_loop iq_buf iq

/-- The driver delivers the chunks one callback at a time, in order; the state
after the last callback. -/
def deliver_chunks (chunks : List (List Nat)) (iq : IQ_DATA) : IQ_DATA :=
  chunks.foldl (fun st c => (rtlsdr_cb c st).1) iq

/-- Whether one of the callbacks of a delivery called `rtlsdr_cancel_async`. -/
def deliver_cancelled : List (List Nat) → IQ_DATA → Bool
  | [], _ => false
  | c :: cs, iq => (rtlsdr_cb c iq).2 || deliver_cancelled cs (rtlsdr_cb c iq).1

/-! ## Loops -/

/-- The loop `for (int i = lo; i < hi; i++) s = body i s`, `fuel` bounding the
number of iterations. -/
def for_loop {σ : Type} (body : Int → σ → σ) (hi : Int) : Nat → Int → σ → σ
  | 0, _, s => s
  | fuel + 1, i, s => if i < hi then for_loop body hi fuel (i + 1) (body i s) else s

/-- The loop `for (int i = lo; i < hi; i++)` with the fuel it needs, `hi - lo`
iterations. -/
def for_int {σ : Type} (lo hi : Int) (body : Int → σ → σ) (s : σ) : σ :=
  for_loop body hi (hi - lo).toNat lo s

/-! ## Floating point -/

/-- The floating-point environment of the program: `rnd32` rounds an exact
result to `float`, `rnd64` rounds it to `double`, and `atan2f y x` is the libm
function. Integers below `2^24` convert to `float` exactly, so such conversions
are written as casts; so is `(float) b - 127.5` for a byte `b`. -/
structure FloatEnv where
  rnd32 : ℚ → ℚ
  rnd64 : ℚ → ℚ
  atan2f : ℚ → ℚ → ℚ

/-- The constant `M_PI` of math.h: the `double` nearest to pi,
`0x1.921fb54442d18p+1`. -/
def M_PI : ℚ := 884279719003555 / 281474976710656

/-- The laws of the rounding functions and of `atan2f` that the proofs use:
rounding is monotone, rounds a `float` to itself, is exact on the halves of the
integers up to `2^24` and on `0`, and `atan2f` returns a `float`. IEEE 754
rounding to nearest obeys them (`ieee_env_sound`). -/
structure FloatEnv.Sound (fe : FloatEnv) : Prop where
  rnd32_mono : ∀ x y : ℚ, x ≤ y → fe.rnd32 x ≤ fe.rnd32 y
  rnd32_idem : ∀ x : ℚ, fe.rnd32 (fe.rnd32 x) = fe.rnd32 x
  rnd32_half : ∀ k : Int, |k| ≤ 2 ^ 24 → fe.rnd32 ((k : ℚ) / 2) = (k : ℚ) / 2
  rnd64_zero : fe.rnd64 0 = 0
  atan2f_float : ∀ y x : ℚ, fe.rnd32 (fe.atan2f y x) = fe.atan2f y x

/-- The accuracy of the rounding functions that the error bounds use: a result
is within half a unit in the last place of the exact value, on the ranges of
magnitude that the demodulator meets. IEEE 754 rounding to nearest is that
accurate (`ieee_env_accurate`). -/
structure FloatEnv.Accurate (fe : FloatEnv) : Prop where
  err32_15 : ∀ x : ℚ, |x| ≤ 15 → |fe.rnd32 x - x| ≤ 1 / 2 ^ 21
  err32_1e6 : ∀ x : ℚ, |x| ≤ 1000000 → |fe.rnd32 x - x| ≤ 1 / 32
  err32_8e6 : ∀ x : ℚ, |x| ≤ 8000000 → |fe.rnd32 x - x| ≤ 1 / 4
  err32_3e7 : ∀ x : ℚ, |x| ≤ 30000000 → |fe.rnd32 x - x| ≤ 1
  err64_15 : ∀ x : ℚ, |x| ≤ 15 → |fe.rnd64 x - x| ≤ 1 / 2 ^ 50
  err64_1e6 : ∀ x : ℚ, |x| ≤ 1000000 → |fe.rnd64 x - x| ≤ 1 / 2 ^ 34

/-- The angle of the points of the four diagonals, in terms of `M_PI`: a
stand-in for `atan2f` on inputs with `|y| = |x|`, used to run the demodulator
on concrete buffers. -/
def diag_atan2f (y x : ℚ) : ℚ :=
  if 0 < x then (if 0 < y then M_PI / 4 else -(M_PI / 4))
  else (if 0 < y then 3 * M_PI / 4 else -(3 * M_PI / 4))

/-- The environment of exact arithmetic with `diag_atan2f`. -/
def exact_env : FloatEnv :=
  { rnd32 := fun x => x, rnd64 := fun x => x, atan2f := diag_atan2f }

/-- The integer nearest to `q`; of two nearest integers, the even one. -/
def round_half_even (q : ℚ) : Int :=
  if q - ⌊q⌋ < 1 / 2 then ⌊q⌋
  else if 1 / 2 < q - ⌊q⌋ then ⌊q⌋ + 1
  else if ⌊q⌋ % 2 = 0 then ⌊q⌋ else ⌊q⌋ + 1

/-- The exponent of the unit in the last place of `q` in a binary format with
`p` significant bits whose least positive value is `2 ^ emin`. -/
def ulp_exp (p : Nat) (emin : Int) (q : ℚ) : Int :=
  max (Int.log 2 |q| - ((p : Int) - 1)) emin

/-- IEEE 754 rounding to nearest, ties to even, in a binary format with `p`
significant bits whose least positive value is `2 ^ emin`; the overflow to
infinity is left out. -/
def rnd_bin (p : Nat) (emin : Int) (q : ℚ) : ℚ :=
  (round_half_even (q / (2 : ℚ) ^ ulp_exp p emin q) : ℚ) * (2 : ℚ) ^ ulp_exp p emin q

/-- The values of the binary format: `m * 2 ^ t` with `|m| < 2 ^ p` and
`emin ≤ t`. -/
def is_float (p : Nat) (emin : Int) (x : ℚ) : Prop :=
  ∃ m t : Int, |m| < 2 ^ p ∧ emin ≤ t ∧ x = (m : ℚ) * (2 : ℚ) ^ t

/-- The IEEE 754 environment: `float` is binary32, `double` is binary64, and
`atan2f` returns the `float` nearest to an approximation `approx` of the
angle. -/
def ieee_env (approx : ℚ → ℚ → ℚ) : FloatEnv :=
  { rnd32 := rnd_bin 24 (-149)
    rnd64 := rnd_bin 53 (-1074)
    atan2f := fun y x => rnd_bin 24 (-149) (approx y x) }

/-- The conversion of a `float` to an integer type truncates toward zero. -/
def trunc (q : ℚ) : Int := if 0 ≤ q then ⌊q⌋ else ⌈q⌉

/-! ## Machine integers -/

/-- The value of an `int` expression, reduced to 32 bits two's complement. -/
def int32 (x : Int) : Int := (x + 2 ^ 31) % 2 ^ 32 - 2 ^ 31

/-- The value stored in an `int16_t`, reduced to 16 bits two's complement. -/
def int16 (x : Int) : Int := (x + 2 ^ 15) % 2 ^ 16 - 2 ^ 15

/-- The value stored in a `uint32_t`. -/
def uint32 (x : Int) : Int := x % 2 ^ 32

/-- The value stored in a `uint16_t`. -/
def uint16 (x : Int) : Int := x % 2 ^ 16

/-! ## The demodulator (fmwav.c, lines 80-100) -/

/-- The state of `fm_demodulate`: the local `last_angle` and the array
`samples`, with three ghost traces: the indices of `iq->buf` read, the indices
of `samples` written and the values of `freq`, all in program order. -/
structure DemodState where
  last_angle : ℚ
  samples : Int → ℚ
  reads : List Int
  writes : List Int
  freqs : List ℚ

/-- The value of `freq` for a new `angle`, and the reference `last_angle` after
the unwrap step (lines 88-93). -/
def fm_freq (fe : FloatEnv) (last_angle angle : ℚ) : ℚ × ℚ :=
  let last_angle :=
    if fe.rnd32 (angle - last_angle) > M_PI then
      fe.rnd32 (fe.rnd64 (last_angle + 2 * M_PI))
    else if fe.rnd32 (angle - last_angle) < -M_PI then
      fe.rnd32 (fe.rnd64 (last_angle - 2 * M_PI))
    else last_angle
  (fe.rnd32 (fe.rnd64
    (fe.rnd32 ((SDR_SAMPLE_RATE : ℚ) * fe.rnd32 (angle - last_angle)) / (2 * M_PI))),
   last_angle)

/-- The difference `angle - last_angle` of line 93, after the unwrap step: the
value the frequency is computed from. -/
def fm_diff (fe : FloatEnv) (last_angle angle : ℚ) : ℚ :=
  fe.rnd32 (angle - (fm_freq fe last_angle angle).2)

/-- The body of the inner loop (lines 85-95) for the pair `j` of the group `i`;
the second component of the state is the local `freq_avg`. -/
def fm_pair (fe : FloatEnv) (iq : IQ_DATA) (i j : Int) (st : DemodState × ℚ) :
    DemodState × ℚ :=
  let i_idx := i * 2 * DECIMATION_FACTOR + 2 * j
  let q_idx := i * 2 * DECIMATION_FACTOR + 2 * j + 1
  let I : ℚ := (iq.buf i_idx : ℚ) - 255 / 2
  let Q : ℚ := (iq.buf q_idx : ℚ) - 255 / 2
  let angle := fe.atan2f Q I
  let freq := (fm_freq fe st.1.last_angle angle).1
  ({ st.1 with
      last_angle := angle
      reads := st.1.reads ++ [i_idx, q_idx]
      freqs := st.1.freqs ++ [freq] },
   fe.rnd32 (st.2 + freq))

/-- The body of the outer loop (lines 83-98) for the group `i`. -/
def fm_group (fe : FloatEnv) (iq : IQ_DATA) (i : Int) (st : DemodState) : DemodState :=
  let r := for_int 0 DECIMATION_FACTOR (fm_pair fe iq i) (st, 0)
  let freq_avg := fe.rnd32 (r.2 / (DECIMATION_FACTOR : ℚ))
  { r.1 with
      samples := store r.1.samples i (fe.rnd32 (freq_avg / (FREQ_DEVIATION : ℚ)))
      writes := r.1.writes ++ [i] }

/-- The function `fm_demodulate(iq, samples)`. -/
def fm_demodulate (fe : FloatEnv) (iq : IQ_DATA) (samples : Int → ℚ) : DemodState :=
  for_int 0 (Int.tdiv iq.len (2 * DECIMATION_FACTOR)) (fm_group fe iq)
    { last_angle := 0, samples := samples, reads := [], writes := [], freqs := [] }

/-- The angle `atan2f(Q, I)` of the `k`-th I/Q pair of the buffer. -/
def pair_angle (fe : FloatEnv) (iq : IQ_DATA) (k : Int) : ℚ :=
  fe.atan2f ((iq.buf (2 * k + 1) : ℚ) - 255 / 2) ((iq.buf (2 * k) : ℚ) - 255 / 2)

/-- The reference `last_angle` when the `k`-th I/Q pair is processed: `0` for
the first pair, the angle of the pair before for the others. -/
def ref_angle (fe : FloatEnv) (iq : IQ_DATA) (k : Int) : ℚ :=
  if k = 0 then 0 else pair_angle fe iq (k - 1)

/-- The successive angles `L`, `A` advance by `d` modulo `2 * M_PI`. -/
def advances (d L A : ℚ) : Prop :=
  A - L = d ∨ A - L = d + 2 * M_PI ∨ A - L = d - 2 * M_PI

/-- The successive angles `L`, `A` advance by `d` modulo `2 * M_PI`, up to
`2^-19`. -/
def near_advances (d L A : ℚ) : Prop :=
  |A - L - d| ≤ 1 / 2 ^ 19 ∨ |A - L - d - 2 * M_PI| ≤ 1 / 2 ^ 19 ∨
    |A - L - d + 2 * M_PI| ≤ 1 / 2 ^ 19

/-- The buffer filled with the repeating 8-byte pattern
`(255,255, 0,255, 0,0, 255,0)`: a phasor turning by 90 degrees per sample. -/
def tone_buf (k : Int) : Nat :=
  [255, 255, 0, 255, 0, 0, 255, 0].getD (k % 8).toNat 0

/-- The state of the inner loop of group `i` after its first `m` iterations. -/
def fm_pairs (fe : FloatEnv) (iq : IQ_DATA) (i : Int) (m : Nat) (st : DemodState × ℚ) :
    DemodState × ℚ :=
  (List.range m).foldl (fun s (j : Nat) => fm_pair fe iq i j s) st

/-- The state of the outer loop after its first `g` iterations. -/
def fm_groups (fe : FloatEnv) (iq : IQ_DATA) (g : Nat) (st : DemodState) : DemodState :=
  (List.range g).foldl (fun s (i : Nat) => fm_group fe iq i s) st

/-- The state `fm_demodulate` starts from. -/
def fm_init (samples : Int → ℚ) : DemodState :=
  { last_angle := 0, samples := samples, reads := [], writes := [], freqs := [] }

/-! ## The fast demodulator (fmwav.c, lines 102-122) -/

/-- The state of `fm_demodulate_fast`: the array `samples`, with two ghost
traces: the indices of `iq->buf` read and the indices of `samples` written, in
program order. -/
structure FastState where
  samples : Int → ℚ
  reads : List Int
  writes : List Int

/-- The body of the inner loop of `fm_demodulate_fast` (lines 110-117) for the
pair `j` of the group `i`; the second component of the state is the local
`freq_avg`. The `int` value of line 116 is converted to `float`. -/
def fm_fast_pair (fe : FloatEnv) (iq : IQ_DATA) (i j : Int) (st : FastState × ℚ) :
    FastState × ℚ :=
  let i_idx := i * 2 * DECIMATION_FACTOR + 2 * j
  let q_idx := i * 2 * DECIMATION_FACTOR + 2 * j + 1
  let I : Int := (iq.buf i_idx : Int) - 127
  let I_PREV : Int := (iq.buf (i_idx - 2) : Int) - 127
  let Q : Int := (iq.buf q_idx : Int) - 127
  let Q_PREV : Int := (iq.buf (q_idx - 2) : Int) - 127
  let freq : ℚ := fe.rnd32 ((int32 (int32 (I * (Q - Q_PREV)) - int32 (Q * (I - I_PREV))) : Int) : ℚ)
  ({ st.1 with reads := st.1.reads ++ [i_idx, i_idx - 2, q_idx, q_idx - 2] },
   fe.rnd32 (st.2 + freq))

/-- The body of the outer loop of `fm_demodulate_fast` (lines 108-120) for the
group `i`. -/
def fm_fast_group (fe : FloatEnv) (iq : IQ_DATA) (i : Int) (st : FastState) : FastState :=
  let r := for_int 0 DECIMATION_FACTOR (fm_fast_pair fe iq i) (st, 0)
  let freq_avg := fe.rnd32 (r.2 / (DECIMATION_FACTOR : ℚ))
  { r.1 with
      samples := store r.1.samples i (fe.rnd32 (freq_avg / (FREQ_DEVIATION : ℚ)))
      writes := r.1.writes ++ [i] }

/-- The function `fm_demodulate_fast(iq, samples)`. -/
def fm_demodulate_fast (fe : FloatEnv) (iq : IQ_DATA) (samples : Int → ℚ) : FastState :=
  for_int 0 (Int.tdiv iq.len (2 * DECIMATION_FACTOR)) (fm_fast_group fe iq)
    { samples := samples, reads := [], writes := [] }

/-- The state of the inner loop of `fm_demodulate_fast` for the group `i` after
its first `m` iterations. -/
def fm_fast_pairs (fe : FloatEnv) (iq : IQ_DATA) (i : Int) (m : Nat) (st : FastState × ℚ) :
    FastState × ℚ :=
  (List.range m).foldl (fun s (j : Nat) => fm_fast_pair fe iq i j s) st

/-- The state of the outer loop of `fm_demodulate_fast` after its first `g`
iterations. -/
def fm_fast_groups (fe : FloatEnv) (iq : IQ_DATA) (g : Nat) (st : FastState) : FastState :=
  (List.range g).foldl (fun s (i : Nat) => fm_fast_group fe iq i s) st

/-- The four indices of `iq->buf` that the iteration of `fm_demodulate_fast` for
the `k`-th pair reads, in program order: `i_idx`, `i_idx - 2`, `q_idx`,
`q_idx - 2`, where `i_idx = 2 * k` for `k = 32 * i + j`. -/
def fast_reads (k : Int) : List Int :=
  [2 * k, 2 * k - 2, 2 * k + 1, 2 * k + 1 - 2]

/-! ## The encoder (fmwav.c, lines 22-38 and 124-163) -/

/-- The packed struct `WAV_HEADER`. -/
structure WAV_HEADER where
  riff : List Char
  overall_size : Int
  wave : List Char
  fmt_chunk_marker : List Char
  length_of_fmt : Int
  format_type : Int
  channels : Int
  sample_rate : Int
  byterate : Int
  block_align : Int
  bits_per_sample : Int
  data_chunk_header : List Char
  data_size : Int
deriving DecidableEq

/-- The call `strncpy(dst, src, n)`: the first `n` characters of `src`, padded
with NUL when `src` is shorter. -/
def strncpy (src : String) (n : Nat) : List Char :=
  (src.toList ++ List.replicate n (Char.ofNat 0)).take n

/-- The header `wav_write` builds for a payload of `len` samples (lines
133-148). `int` expressions are reduced by `int32`, `unsigned` ones by
`uint32`; `/` on `int` truncates. -/
def wav_header (len : Int) : WAV_HEADER :=
  let length_of_fmt := uint32 16
  let format_type := uint16 1
  let channels := uint16 1
  let sample_rate := uint32 WAV_SAMPLE_RATE
  let bits_per_sample := uint16 16
  let byterate := uint32 (uint32 (uint32 (sample_rate * channels) * bits_per_sample) / 8)
  let block_align := uint16 (Int.tdiv (int32 (channels * bits_per_sample)) 8)
  let data_size := uint32 (Int.tdiv (int32 (int32 (len * channels) * bits_per_sample)) 8)
  let overall_size := uint32 (uint32 (4 + uint32 (8 + length_of_fmt)) + uint32 (8 + data_size))
  { riff := strncpy "RIFF" 4
    overall_size := overall_size
    wave := strncpy "WAVE" 4
    fmt_chunk_marker := strncpy "fmt " 4
    length_of_fmt := length_of_fmt
    format_type := format_type
    channels := channels
    sample_rate := sample_rate
    byterate := byterate
    block_align := block_align
    bits_per_sample := bits_per_sample
    data_chunk_header := strncpy "data" 4
    data_size := data_size }

/-- The conversion `(int16_t) x` of a `float` `x`, as compiled for x86-64: the
instruction `cvttss2si` converts to a 32-bit `int`, truncating toward zero, and
gives `-2^31` when the truncation is not an `int`; the store keeps the low 16
bits. ISO C leaves the conversion undefined when the truncation is not an
`int16_t`. -/
def float_to_int16 (x : ℚ) : Int :=
  int16 (if -2 ^ 31 ≤ trunc x ∧ trunc x < 2 ^ 31 then trunc x else -2 ^ 31)

/-- The conversion of line 154, `(int16_t) (samples[i] * 32767)`: the `float`
product, converted to `int16_t`. -/
def pcm_sample (fe : FloatEnv) (s : ℚ) : Int :=
  float_to_int16 (fe.rnd32 (s * 32767))

/-- The array `pcm_data` after the loop of lines 153-155. -/
def pcm_data (fe : FloatEnv) (samples : Int → ℚ) (len : Int) : List Int :=
  (List.range len.toNat).map (fun k : Nat => pcm_sample fe (samples (k : Int)))

/-- The array `[0.0, 0.5, -0.5, 1.0, -1.0]` of normalized samples. -/
def known_samples (k : Int) : ℚ :=
  [0, 1 / 2, -1 / 2, 1, -1].getD k.toNat 0

/-- The `width` bytes of `n`, least significant first. -/
def le_bytes (width : Nat) (n : Int) : List Nat :=
  (List.range width).map (fun k => (n / 256 ^ k % 256).toNat)

/-- The number that the bytes `bs` spell, least significant byte first. -/
def le_value (bs : List Nat) : Int :=
  bs.foldr (fun b acc => (b : Int) + 256 * acc) 0

/-- The bytes of the packed header, fields in declaration order. -/
def header_bytes (h : WAV_HEADER) : List Nat :=
  h.riff.map Char.toNat ++ le_bytes 4 h.overall_size ++ h.wave.map Char.toNat ++
  h.fmt_chunk_marker.map Char.toNat ++ le_bytes 4 h.length_of_fmt ++
  le_bytes 2 h.format_type ++ le_bytes 2 h.channels ++ le_bytes 4 h.sample_rate ++
  le_bytes 4 h.byterate ++ le_bytes 2 h.block_align ++ le_bytes 2 h.bits_per_sample ++
  h.data_chunk_header.map Char.toNat ++ le_bytes 4 h.data_size

/-- The bytes of the array `pcm_data`. -/
def pcm_bytes (pcm : List Int) : List Nat :=
  pcm.flatMap (fun v => le_bytes 2 (uint16 v))

/-- What the C library answers to `wav_write`: whether `fopen` returns a file,
and whether each of the two `fwrite` calls writes its data. -/
structure FileOutcome where
  fopen_ok : Bool
  header_ok : Bool
  data_ok : Bool

/-- The function `wav_write(samples, len)`: its return value and the content
of the file, `none` when no file was created. The results of `fwrite` are not
looked at by the code. -/
def wav_write (fe : FloatEnv) (fs : FileOutcome) (samples : Int → ℚ) (len : Int) :
    Int × Option (List Nat) :=
  if !fs.fopen_ok then (-1, none)
  else
    let header := wav_header len
    let pcm := pcm_data fe samples len
    (0, some ((if fs.header_ok then header_bytes header else []) ++
              (if fs.data_ok then pcm_bytes pcm else [])))

/-! ## The program (fmwav.c, lines 58-78 and 165-205) -/

/-- What the radio driver answers to `rtlsdr_listen`: the result of
`rtlsdr_open`, the bitwise or of the results of the four set-up calls, the
chunks `rtlsdr_read_async` hands to the callback, and the bitwise or of the
results of `rtlsdr_read_async` and `rtlsdr_close`. -/
structure Driver where
  open_r : Int
  setup_r : Int
  chunks : List (List Nat)
  read_r : Int

/-- The function `rtlsdr_listen(iq, frequency)`: its return value and the
buffer afterwards. -/
def rtlsdr_listen (drv : Driver) (iq : IQ_DATA) : Int × IQ_DATA :=
  if drv.open_r < 0 then (-1, iq)
  else if drv.setup_r < 0 then (-1, iq)
  else if drv.read_r < 0 then (-1, deliver_chunks drv.chunks iq)
  else (0, deliver_chunks drv.chunks iq)

/-- The capacity `main` gives the buffer, `len_secs * SDR_SAMPLE_RATE * 2`
(line 183). -/
def main_iq_len (len_secs : Int) : Int :=
  int32 (int32 (len_secs * SDR_SAMPLE_RATE) * 2)

/-- The number of samples `main` allocates and passes to `wav_write`,
`len_secs * WAV_SAMPLE_RATE` (lines 185 and 198). -/
def main_nsamples (len_secs : Int) : Int :=
  int32 (len_secs * WAV_SAMPLE_RATE)

/-- The inputs of a run of `main`: `argc`, the value of `atoi(argv[2])`,
whether both `malloc` calls succeed, the content of the two fresh allocations,
and the answers of the driver and of the C library. -/
structure Run where
  argc : Int
  length_arg : Int
  malloc_ok : Bool
  buf0 : Int → Nat
  samples0 : Int → ℚ
  drv : Driver
  fs : FileOutcome

/-- The processing phase of `main` (lines 195-198) on the buffer the capture
left: the state of the demodulator and the result of `wav_write`. -/
def main_process (fe : FloatEnv) (len_secs : Int) (iq : IQ_DATA) (samples0 : Int → ℚ)
    (fs : FileOutcome) : DemodState × (Int × Option (List Nat)) :=
  let st := fm_demodulate fe iq samples0
  (st, wav_write fe fs st.samples (main_nsamples len_secs))

/-- A run of `main` for one second in which the file opens and both `fwrite`
calls fail. -/
def failed_write_run : Run :=
  { argc := 3, length_arg := 1, malloc_ok := true, buf0 := fun _ => 0, samples0 := fun _ => 0,
    drv := { open_r := 0, setup_r := 0, chunks := [], read_r := 0 },
    fs := { fopen_ok := true, header_ok := false, data_ok := false } }

/-- The function `main`: the exit status and the content of the file written,
if any. -/
def main (fe : FloatEnv) (run : Run) : Int × Option (List Nat) :=
  if run.argc < 2 then (1, none)
  else
    let len_secs := if run.argc > 2 then run.length_arg else DEFAULT_LEN_SECS
    let iq : IQ_DATA := { buf := run.buf0, len := main_iq_len len_secs, i := 0 }
    if !run.malloc_ok then (1, none)
    else
      let r := rtlsdr_listen run.drv iq
      if r.1 < 0 then (1, none)
      else
        let w := (main_process fe len_secs r.2 run.samples0 run.fs).2
        if w.1 < 0 then (2, w.2) else (0, w.2)

/-! ## Lemmas on loops -/

theorem for_loop_eq_foldl {σ : Type} (body : Int → σ → σ) (hi : Int) :
    ∀ (n : Nat) (lo : Int) (s : σ), lo + n = hi →
      for_loop body hi n lo s = (List.range n).foldl (fun s (k : Nat) => body (lo + k) s) s := by
  intro n
  induction n with
  | zero => intro lo s _; rfl
  | succ n ih =>
    intro lo s h
    have hlt : lo < hi := by omega
    simp only [for_loop, if_pos hlt]
    rw [ih (lo + 1) (body lo s) (by omega), List.range_succ_eq_map, List.foldl_cons,
      List.foldl_map]
    simp only [Nat.cast_zero, add_zero, Nat.succ_eq_add_one, Nat.cast_add, Nat.cast_one]
    congr 1
    funext s k
    congr 1
    ring

/-- A `for` loop runs its body for `lo`, `lo + 1`, ..., `hi - 1` in turn. -/
theorem for_int_eq_foldl {σ : Type} (lo hi : Int) (body : Int → σ → σ) (s : σ) :
    for_int lo hi body s =
      (List.range (hi - lo).toNat).foldl (fun s (k : Nat) => body (lo + k) s) s := by
  unfold for_int
  by_cases h : lo ≤ hi
  · exact for_loop_eq_foldl body hi _ lo s (by omega)
  · have h0 : (hi - lo).toNat = 0 := by omega
    rw [h0]; rfl

/-! ## Lemmas on the capture buffer -/

theorem rtlsdr_cb_loop_fits (chunk : List Nat) :
    ∀ iq : IQ_DATA, iq.i + chunk.length ≤ iq.len →
      (rtlsdr_cb_loop chunk iq).1.i = iq.i + chunk.length ∧
      (rtlsdr_cb_loop chunk iq).1.len = iq.len ∧
      (rtlsdr_cb_loop chunk iq).2 = false ∧
      (∀ k : Nat, k < chunk.length →
        (rtlsdr_cb_loop chunk iq).1.buf (iq.i + k) = chunk.getD k 0) ∧
      (∀ k : Int, k < iq.i ∨ iq.i + chunk.length ≤ k →
        (rtlsdr_cb_loop chunk iq).1.buf k = iq.buf k) := by
  induction chunk with
  | nil => intro iq _; simp [rtlsdr_cb_loop]
  | cons b rest ih =>
    intro iq h
    simp only [List.length_cons, Nat.cast_add, Nat.cast_one] at h
    have hlt : ¬ iq.i ≥ iq.len := by
      have : (0 : Int) ≤ rest.length := Int.ofNat_nonneg _
      omega
    simp only [rtlsdr_cb_loop, if_neg hlt]
    obtain ⟨h1, h2, h3, h4, h5⟩ :=
      ih { iq with buf := store iq.buf iq.i b, i := iq.i + 1 } (by simp; omega)
    simp only at h1 h2 h3 h4 h5
    refine ⟨?_, h2, h3, ?_, ?_⟩
    · rw [h1]; simp; omega
    · intro k hk
      cases k with
      | zero =>
        rw [h5 (iq.i + (0 : Nat)) (Or.inl (by simp))]
        simp [store]
      | succ k =>
        have := h4 k (by simpa using hk)
        simp only [List.getD_cons_succ]
        rw [← this]
        congr 1
        push_cast
        ring
    · intro k hk
      rw [h5 k (by simp only [List.length_cons, Nat.cast_add, Nat.cast_one] at hk; omega)]
      simp only [List.length_cons, Nat.cast_add, Nat.cast_one] at hk
      have : (0 : Int) ≤ rest.length := Int.ofNat_nonneg _
      have hne : ¬ k = iq.i := by omega
      simp [store, hne]

theorem rtlsdr_cb_loop_full (chunk : List Nat) (iq : IQ_DATA) (h : iq.len ≤ iq.i) :
    rtlsdr_cb_loop chunk iq = (iq, !chunk.isEmpty) := by
  cases chunk with
  | nil => simp [rtlsdr_cb_loop]
  | cons b rest => simp [rtlsdr_cb_loop, h]

theorem deliver_chunks_fits (chunks : List (List Nat)) :
    ∀ iq : IQ_DATA, iq.i + chunks.flatten.length ≤ iq.len →
      (deliver_chunks chunks iq).i = iq.i + chunks.flatten.length ∧
      (deliver_chunks chunks iq).len = iq.len ∧
      deliver_cancelled chunks iq = false ∧
      (∀ k : Nat, k < chunks.flatten.length →
        (deliver_chunks chunks iq).buf (iq.i + k) = chunks.flatten.getD k 0) ∧
      (∀ k : Int, k < iq.i ∨ iq.i + chunks.flatten.length ≤ k →
        (deliver_chunks chunks iq).buf k = iq.buf k) := by
  induction chunks with
  | nil => intro iq _; simp [deliver_chunks, deliver_cancelled]
  | cons c cs ih =>
    intro iq h
    simp only [List.flatten_cons, List.length_append, Nat.cast_add] at h ⊢
    have hc : (0 : Int) ≤ c.length := Int.ofNat_nonneg _
    have hcs : (0 : Int) ≤ cs.flatten.length := Int.ofNat_nonneg _
    obtain ⟨a1, a2, a3, a4, a5⟩ := rtlsdr_cb_loop_fits c iq (by omega)
    obtain ⟨b1, b2, b3, b4, b5⟩ := ih (rtlsdr_cb_loop c iq).1 (by rw [a1, a2]; omega)
    have hd : deliver_chunks (c :: cs) iq = deliver_chunks cs (rtlsdr_cb_loop c iq).1 := rfl
    rw [hd]
    refine ⟨by rw [b1, a1]; omega, by rw [b2, a2], ?_, ?_, ?_⟩
    · simp only [deliver_cancelled, rtlsdr_cb, a3, b3, Bool.or_self]
    · intro k hk
      by_cases hkc : k < c.length
      · rw [b5 _ (Or.inl (by rw [a1]; omega)), a4 k hkc]
        simp [List.getD_eq_getElem?_getD, List.getElem?_append_left hkc]
      · have hk2 : k - c.length < cs.flatten.length := by omega
        have := b4 (k - c.length) hk2
        rw [a1] at this
        have e : iq.i + (c.length : Int) + ((k - c.length : Nat) : Int) = iq.i + k := by omega
        rw [e] at this
        rw [this]
        simp [List.getD_eq_getElem?_getD, List.getElem?_append_right (Nat.le_of_not_lt hkc)]
    · intro k hk
      rw [b5 k (by rw [a1]; omega), a5 k (by omega)]

theorem rtlsdr_cb_loop_append (pre suf : List Nat) :
    ∀ iq : IQ_DATA, iq.i + pre.length ≤ iq.len →
      rtlsdr_cb_loop (pre ++ suf) iq = rtlsdr_cb_loop suf (rtlsdr_cb_loop pre iq).1 := by
  induction pre with
  | nil => intro iq _; simp [rtlsdr_cb_loop]
  | cons b rest ih =>
    intro iq h
    simp only [List.length_cons, Nat.cast_add, Nat.cast_one] at h
    have hlt : ¬ iq.i ≥ iq.len := by
      have : (0 : Int) ≤ rest.length := Int.ofNat_nonneg _
      omega
    simp only [List.cons_append, rtlsdr_cb_loop, if_neg hlt]
    exact ih _ (by simp only; omega)

/-- A chunk longer than the remaining capacity: the callback stores the prefix
that fits, stops at `len` and cancels. -/
theorem rtlsdr_cb_loop_long (chunk : List Nat) (iq : IQ_DATA) (h1 : iq.i ≤ iq.len)
    (hlong : iq.len - iq.i < chunk.length) :
    rtlsdr_cb_loop chunk iq =
      ((rtlsdr_cb_loop (chunk.take (iq.len - iq.i).toNat) iq).1, true) := by
  have hn : ((iq.len - iq.i).toNat : Int) = iq.len - iq.i := Int.toNat_of_nonneg (by omega)
  have hlen : (chunk.take (iq.len - iq.i).toNat).length = (iq.len - iq.i).toNat := by
    rw [List.length_take]; omega
  have hfit : iq.i + ((chunk.take (iq.len - iq.i).toNat).length : Int) ≤ iq.len := by
    rw [hlen, hn]; omega
  conv_lhs => rw [← List.take_append_drop (iq.len - iq.i).toNat chunk]
  rw [rtlsdr_cb_loop_append _ _ iq hfit]
  obtain ⟨a1, a2, -, -, -⟩ := rtlsdr_cb_loop_fits (chunk.take (iq.len - iq.i).toNat) iq hfit
  rw [rtlsdr_cb_loop_full _ _ (by rw [a1, a2, hlen, hn]; omega)]
  have hne : (chunk.drop (iq.len - iq.i).toNat) ≠ [] := by
    intro hd
    have := congrArg List.length hd
    simp only [List.length_drop, List.length_nil] at this
    omega
  cases hd : chunk.drop (iq.len - iq.i).toNat with
  | nil => exact absurd hd hne
  | cons x xs => rfl

theorem rtlsdr_cb_loop_long_cursor (chunk : List Nat) (iq : IQ_DATA) (h1 : iq.i ≤ iq.len)
    (hlong : iq.len - iq.i < chunk.length) :
    (rtlsdr_cb_loop chunk iq).1.i = iq.len ∧ (rtlsdr_cb_loop chunk iq).1.len = iq.len := by
  have hn : ((iq.len - iq.i).toNat : Int) = iq.len - iq.i := Int.toNat_of_nonneg (by omega)
  have hlen : (chunk.take (iq.len - iq.i).toNat).length = (iq.len - iq.i).toNat := by
    rw [List.length_take]; omega
  obtain ⟨a1, a2, -, -, -⟩ :=
    rtlsdr_cb_loop_fits (chunk.take (iq.len - iq.i).toNat) iq (by rw [hlen, hn]; omega)
  rw [rtlsdr_cb_loop_long chunk iq h1 hlong]
  exact ⟨by rw [a1, hlen, hn]; omega, a2⟩

/-! ## Lemmas on the demodulator: the traces -/

theorem fm_pairs_succ (fe : FloatEnv) (iq : IQ_DATA) (i : Int) (m : Nat)
    (st : DemodState × ℚ) :
    fm_pairs fe iq i (m + 1) st = fm_pair fe iq i m (fm_pairs fe iq i m st) := by
  simp [fm_pairs, List.range_succ, List.foldl_append]

theorem fm_groups_succ (fe : FloatEnv) (iq : IQ_DATA) (g : Nat) (st : DemodState) :
    fm_groups fe iq (g + 1) st = fm_group fe iq g (fm_groups fe iq g st) := by
  simp [fm_groups, List.range_succ, List.foldl_append]

theorem fm_group_eq (fe : FloatEnv) (iq : IQ_DATA) (i : Int) (st : DemodState) :
    fm_group fe iq i st =
      { (fm_pairs fe iq i 32 (st, 0)).1 with
        samples := store (fm_pairs fe iq i 32 (st, 0)).1.samples i
          (fe.rnd32 (fe.rnd32 ((fm_pairs fe iq i 32 (st, 0)).2 / 32) / 75000))
        writes := (fm_pairs fe iq i 32 (st, 0)).1.writes ++ [i] } := by
  have h : for_int 0 DECIMATION_FACTOR (fm_pair fe iq i) (st, 0) =
      fm_pairs fe iq i 32 (st, 0) := by
    rw [for_int_eq_foldl]
    simp [fm_pairs, DECIMATION_FACTOR]
  simp only [fm_group, h]
  simp [DECIMATION_FACTOR, FREQ_DEVIATION]

theorem fm_demodulate_eq (fe : FloatEnv) (iq : IQ_DATA) (samples : Int → ℚ) :
    fm_demodulate fe iq samples =
      fm_groups fe iq (Int.tdiv iq.len 64).toNat (fm_init samples) := by
  unfold fm_demodulate
  rw [for_int_eq_foldl]
  simp [fm_groups, fm_init, DECIMATION_FACTOR]

/-- The traces of the inner loop after `m` pairs: the bytes `64 i`, ...,
`64 i + 2 m - 1` were read in this order, one `freq` per pair was computed, and
`samples` was not written. -/
theorem fm_pairs_trace (fe : FloatEnv) (iq : IQ_DATA) (i : Int) (st : DemodState × ℚ) :
    ∀ m : Nat,
      (fm_pairs fe iq i m st).1.reads =
        st.1.reads ++ (List.range (2 * m)).map (fun k : Nat => 64 * i + (k : Int)) ∧
      (fm_pairs fe iq i m st).1.writes = st.1.writes ∧
      (fm_pairs fe iq i m st).1.samples = st.1.samples ∧
      (fm_pairs fe iq i m st).1.freqs.length = st.1.freqs.length + m := by
  intro m
  induction m with
  | zero => simp [fm_pairs]
  | succ m ih =>
    obtain ⟨h1, h2, h3, h4⟩ := ih
    rw [fm_pairs_succ]
    refine ⟨?_, h2, h3, ?_⟩
    · simp only [fm_pair, h1, DECIMATION_FACTOR]
      rw [show 2 * (m + 1) = (2 * m).succ.succ from rfl, List.range_succ, List.range_succ]
      simp only [List.map_append, List.map_cons, List.map_nil, List.append_assoc,
        List.cons_append, List.nil_append, Nat.succ_eq_add_one]
      congr 3
      · push_cast; ring
      · congr 1
        push_cast; ring
    · simp only [fm_pair, List.length_append, List.length_cons, List.length_nil, h4]
      omega

/-- The traces of one group. -/
theorem fm_group_trace (fe : FloatEnv) (iq : IQ_DATA) (i : Int) (st : DemodState) :
    (fm_group fe iq i st).reads =
      st.reads ++ (List.range 64).map (fun k : Nat => 64 * i + (k : Int)) ∧
    (fm_group fe iq i st).writes = st.writes ++ [i] ∧
    (∀ k : Int, k ≠ i → (fm_group fe iq i st).samples k = st.samples k) ∧
    (fm_group fe iq i st).freqs.length = st.freqs.length + 32 := by
  obtain ⟨h1, h2, h3, h4⟩ := fm_pairs_trace fe iq i (st, 0) 32
  rw [fm_group_eq]
  refine ⟨h1, by simp only [h2], ?_, h4⟩
  intro k hk
  simp only [h3, store, if_neg hk]

/-- The traces after `g` groups: the bytes `0`, ..., `64 g - 1` were read in
this order and `samples[0]`, ..., `samples[g - 1]` were written in this
order. -/
theorem fm_groups_trace (fe : FloatEnv) (iq : IQ_DATA) (samples : Int → ℚ) :
    ∀ g : Nat,
      (fm_groups fe iq g (fm_init samples)).reads =
        (List.range (64 * g)).map (fun k : Nat => (k : Int)) ∧
      (fm_groups fe iq g (fm_init samples)).writes =
        (List.range g).map (fun k : Nat => (k : Int)) ∧
      (∀ k : Int, k < 0 ∨ (g : Int) ≤ k →
        (fm_groups fe iq g (fm_init samples)).samples k = samples k) ∧
      (fm_groups fe iq g (fm_init samples)).freqs.length = 32 * g := by
  intro g
  induction g with
  | zero => simp [fm_groups, fm_init]
  | succ g ih =>
    obtain ⟨h1, h2, h3, h4⟩ := ih
    obtain ⟨a1, a2, a3, a4⟩ := fm_group_trace fe iq g (fm_groups fe iq g (fm_init samples))
    rw [fm_groups_succ]
    refine ⟨?_, ?_, ?_, ?_⟩
    · rw [a1, h1, show 64 * (g + 1) = 64 * g + 64 by ring, List.range_add, List.map_append,
        List.map_map]
      congr 1
    · rw [a2, h2, List.range_succ, List.map_append]
      rfl
    · intro k hk
      rw [a3 k (by omega), h3 k (by omega)]
    · rw [a4, h4]; ring

/-- The traces of `fm_demodulate` on a buffer of capacity `len ≥ 0`. -/
theorem fm_demodulate_trace (fe : FloatEnv) (iq : IQ_DATA) (samples : Int → ℚ)
    (hlen : 0 ≤ iq.len) :
    (fm_demodulate fe iq samples).reads =
      (List.range (64 * (iq.len / 64).toNat)).map (fun k : Nat => (k : Int)) ∧
    (fm_demodulate fe iq samples).writes =
      (List.range (iq.len / 64).toNat).map (fun k : Nat => (k : Int)) ∧
    (∀ k : Int, k < 0 ∨ iq.len / 64 ≤ k →
      (fm_demodulate fe iq samples).samples k = samples k) ∧
    (fm_demodulate fe iq samples).freqs.length = 32 * (iq.len / 64).toNat := by
  rw [fm_demodulate_eq, Int.tdiv_eq_ediv hlen (by decide)]
  obtain ⟨h1, h2, h3, h4⟩ := fm_groups_trace fe iq samples (iq.len / 64).toNat
  refine ⟨h1, h2, ?_, h4⟩
  intro k hk
  exact h3 k (by omega)

/-- The demodulator does not look at the cursor `iq->i`. -/
theorem fm_demodulate_cursor (fe : FloatEnv) (iq : IQ_DATA) (samples : Int → ℚ) (c : Int) :
    fm_demodulate fe { iq with i := c } samples = fm_demodulate fe iq samples := rfl

/-! ## The capture buffer: claims C1 to C4 -/

/-- C1 (buffer capacity invariant). For a buffer with `0 ≤ i ≤ len` and chunks
whose total length is at most `len - i`, delivering the chunks to `rtlsdr_cb`
leaves the cursor at the initial cursor plus the number of bytes delivered,
leaves `len` as it was, calls no cancellation, stores the concatenation of the
chunks in delivery order at `buf[i .. i + total)`, and changes no other byte. -/
theorem C1_capacity_invariant (iq : IQ_DATA) (chunks : List (List Nat))
    (_h0 : 0 ≤ iq.i) (_h1 : iq.i ≤ iq.len)
    (hfit : (chunks.flatten.length : Int) ≤ iq.len - iq.i) :
    (deliver_chunks chunks iq).i = iq.i + chunks.flatten.length ∧
    (deliver_chunks chunks iq).len = iq.len ∧
    deliver_cancelled chunks iq = false ∧
    (∀ k : Nat, ∀ hk : k < chunks.flatten.length,
      (deliver_chunks chunks iq).buf (iq.i + k) = chunks.flatten[k]) ∧
    (∀ k : Int, k < iq.i ∨ iq.i + chunks.flatten.length ≤ k →
      (deliver_chunks chunks iq).buf k = iq.buf k) := by
  obtain ⟨a1, a2, a3, a4, a5⟩ := deliver_chunks_fits chunks iq (by omega)
  refine ⟨a1, a2, a3, ?_, a5⟩
  intro k hk
  rw [a4 k hk, List.getD_eq_getElem?_getD, List.getElem?_eq_getElem hk]
  rfl

/-- Witness of C1: the chunks `[1, 2]`, `[]`, `[3]` delivered to an empty
buffer of capacity 4. -/
theorem C1_capacity_invariant_witness :
    (deliver_chunks [[1, 2], [], [3]] ⟨fun _ => 0, 4, 0⟩).i = 3 ∧
    (deliver_chunks [[1, 2], [], [3]] ⟨fun _ => 0, 4, 0⟩).buf 2 = 3 := by
  have h := C1_capacity_invariant ⟨fun _ => 0, 4, 0⟩ [[1, 2], [], [3]]
    (by decide) (by decide) (by decide)
  exact ⟨h.1, h.2.2.2.1 2 (by decide)⟩

/-- C2 (truncation correctness). For a buffer with `0 ≤ i ≤ len` and a chunk
longer than the remaining capacity `len - i`, `rtlsdr_cb` stores the first
`len - i` bytes of the chunk at `buf[i .. len)`, leaves the cursor at `len`,
calls `rtlsdr_cancel_async`, changes no byte outside `[i, len)`, and the buffer
it leaves is the one the prefix alone would leave: no byte beyond the prefix is
stored. -/
theorem C2_truncation (iq : IQ_DATA) (chunk : List Nat)
    (_h0 : 0 ≤ iq.i) (h1 : iq.i ≤ iq.len)
    (hlong : iq.len - iq.i < (chunk.length : Int)) :
    (rtlsdr_cb chunk iq).1.i = iq.len ∧
    (rtlsdr_cb chunk iq).1.len = iq.len ∧
    (rtlsdr_cb chunk iq).2 = true ∧
    (∀ k : Nat, (k : Int) < iq.len - iq.i →
      chunk[k]? = some ((rtlsdr_cb chunk iq).1.buf (iq.i + k))) ∧
    (∀ k : Int, k < iq.i ∨ iq.len ≤ k → (rtlsdr_cb chunk iq).1.buf k = iq.buf k) ∧
    (rtlsdr_cb chunk iq).1 = (rtlsdr_cb (chunk.take (iq.len - iq.i).toNat) iq).1 := by
  have hn : ((iq.len - iq.i).toNat : Int) = iq.len - iq.i := Int.toNat_of_nonneg (by omega)
  have hlen : (chunk.take (iq.len - iq.i).toNat).length = (iq.len - iq.i).toNat := by
    rw [List.length_take]; omega
  obtain ⟨a1, a2, -, a4, a5⟩ :=
    rtlsdr_cb_loop_fits (chunk.take (iq.len - iq.i).toNat) iq (by rw [hlen, hn]; omega)
  simp only [rtlsdr_cb, rtlsdr_cb_loop_long chunk iq h1 hlong]
  rw [hlen, hn] at a1 a5
  refine ⟨by rw [a1]; omega, a2, trivial, ?_, ?_, trivial⟩
  · intro k hk
    have hk2 : k < (iq.len - iq.i).toNat := by omega
    rw [a4 k (by rw [hlen]; exact hk2), List.getD_eq_getElem?_getD, List.getElem?_take_of_lt hk2]
    have hk3 : k < chunk.length := by omega
    simp [List.getElem?_eq_getElem hk3]
  · intro k hk
    exact a5 k (by omega)

/-- Witness of C2: the chunk `[7, 8, 9]` delivered with one byte of capacity
left. -/
theorem C2_truncation_witness :
    (rtlsdr_cb [7, 8, 9] ⟨fun _ => 0, 2, 1⟩).1.i = 2 ∧
    (rtlsdr_cb [7, 8, 9] ⟨fun _ => 0, 2, 1⟩).2 = true :=
  have h := C2_truncation ⟨fun _ => 0, 2, 1⟩ [7, 8, 9] (by decide) (by decide) (by decide)
  ⟨h.1, h.2.2.1⟩

/-- C3, as stated, fails: the chunk `[1, 2]` fills an empty buffer of capacity
2 exactly, the cursor is at `len` after the call, and `rtlsdr_cancel_async` was
not called. -/
theorem C3_counterexample :
    ¬ ((rtlsdr_cb [1, 2] ⟨fun _ => 0, 2, 0⟩).2 = true ↔
        (rtlsdr_cb [1, 2] ⟨fun _ => 0, 2, 0⟩).1.i = (rtlsdr_cb [1, 2] ⟨fun _ => 0, 2, 0⟩).1.len) := by
  decide

/-- C3, amended. For a buffer with `0 ≤ i ≤ len` and any chunk, `rtlsdr_cb`
calls `rtlsdr_cancel_async` if and only if the chunk is longer than the
remaining capacity `len - i`, that is, when a byte arrives that does not fit;
whenever it cancels, the cursor is at `len` after the call; and a chunk that
exactly fills the remaining capacity leaves the cursor at `len` without
cancelling. -/
theorem C3_cancel_iff_overflow (iq : IQ_DATA) (chunk : List Nat)
    (_h0 : 0 ≤ iq.i) (h1 : iq.i ≤ iq.len) :
    ((rtlsdr_cb chunk iq).2 = true ↔ iq.len - iq.i < (chunk.length : Int)) ∧
    ((rtlsdr_cb chunk iq).2 = true → (rtlsdr_cb chunk iq).1.i = iq.len) ∧
    ((chunk.length : Int) = iq.len - iq.i →
      (rtlsdr_cb chunk iq).2 = false ∧ (rtlsdr_cb chunk iq).1.i = iq.len) := by
  by_cases hlong : iq.len - iq.i < (chunk.length : Int)
  · have hn : ((iq.len - iq.i).toNat : Int) = iq.len - iq.i := Int.toNat_of_nonneg (by omega)
    have hlen : (chunk.take (iq.len - iq.i).toNat).length = (iq.len - iq.i).toNat := by
      rw [List.length_take]; omega
    obtain ⟨a1, -, -, -, -⟩ :=
      rtlsdr_cb_loop_fits (chunk.take (iq.len - iq.i).toNat) iq (by rw [hlen, hn]; omega)
    simp only [rtlsdr_cb, rtlsdr_cb_loop_long chunk iq h1 hlong]
    refine ⟨by simp [hlong], fun _ => by rw [a1, hlen, hn]; omega, fun h => by omega⟩
  · obtain ⟨a1, -, a3, -, -⟩ := rtlsdr_cb_loop_fits chunk iq (by omega)
    simp only [rtlsdr_cb, a3]
    refine ⟨by simp [hlong], by simp, fun h => ⟨trivial, by rw [a1]; omega⟩⟩

/-- Witness of the amended C3: the chunk `[1, 2]` on an empty buffer of
capacity 2, and the chunk `[3]` that follows. -/
theorem C3_cancel_iff_overflow_witness :
    (rtlsdr_cb [1, 2] ⟨fun _ => 0, 2, 0⟩).2 = false ∧
    (rtlsdr_cb [3] ⟨fun _ => 0, 2, 2⟩).2 = true :=
  ⟨((C3_cancel_iff_overflow ⟨fun _ => 0, 2, 0⟩ [1, 2] (by decide) (by decide)).2.2
      (by decide)).1,
   (C3_cancel_iff_overflow ⟨fun _ => 0, 2, 2⟩ [3] (by decide) (by decide)).1.2 (by decide)⟩

/-- C4 (cursor invariant). Every call of `rtlsdr_cb` keeps `0 ≤ i ≤ len` and
leaves `len` as it was, and on a buffer with `i = len` a call with any chunk
leaves the cursor and every byte of `buf` unchanged. -/
theorem C4_cursor_invariant (iq : IQ_DATA) (chunk : List Nat)
    (h0 : 0 ≤ iq.i) (h1 : iq.i ≤ iq.len) :
    (0 ≤ (rtlsdr_cb chunk iq).1.i ∧ (rtlsdr_cb chunk iq).1.i ≤ (rtlsdr_cb chunk iq).1.len ∧
      (rtlsdr_cb chunk iq).1.len = iq.len) ∧
    (iq.i = iq.len →
      (rtlsdr_cb chunk iq).1.i = iq.i ∧ ∀ k : Int, (rtlsdr_cb chunk iq).1.buf k = iq.buf k) := by
  constructor
  · by_cases hlong : iq.len - iq.i < (chunk.length : Int)
    · obtain ⟨a1, a2⟩ := rtlsdr_cb_loop_long_cursor chunk iq h1 hlong
      simp only [rtlsdr_cb]
      rw [a1, a2]; omega
    · obtain ⟨a1, a2, -, -, -⟩ := rtlsdr_cb_loop_fits chunk iq (by omega)
      have : (0 : Int) ≤ chunk.length := Int.ofNat_nonneg _
      simp only [rtlsdr_cb]
      rw [a1, a2]; omega
  · intro hfull
    simp [rtlsdr_cb, rtlsdr_cb_loop_full chunk iq (by omega)]

/-- Witness of C4: the chunk `[5, 6]` delivered to a full buffer of capacity
2. -/
theorem C4_cursor_invariant_witness :
    (rtlsdr_cb [5, 6] ⟨fun _ => 0, 2, 2⟩).1.i = 2 ∧
    (rtlsdr_cb [5, 6] ⟨fun _ => 0, 2, 2⟩).1.buf 1 = 0 :=
  have h := (C4_cursor_invariant ⟨fun _ => 0, 2, 2⟩ [5, 6] (by decide) (by decide)).2 rfl
  ⟨h.1, h.2 1⟩

/-! ## The demodulator: claims C5 and C6 -/

/-- C5 (demodulator length law). On a buffer of `L = iq->len ≥ 0` bytes,
`fm_demodulate` writes exactly `floor(L / 64)` samples, `64` being
`2 * DECIMATION_FACTOR`: it writes `samples[0]`, ..., `samples[floor(L/64) - 1]`
in this order, once each, and no other index, so the rest of `samples` is as it
was. -/
theorem C5_length_law (fe : FloatEnv) (iq : IQ_DATA) (samples : Int → ℚ)
    (hL : 0 ≤ iq.len) :
    (fm_demodulate fe iq samples).writes =
      (List.range (iq.len / (2 * DECIMATION_FACTOR)).toNat).map (fun k : Nat => (k : Int)) ∧
    ((fm_demodulate fe iq samples).writes.length : Int) = iq.len / 64 ∧
    (∀ k : Int, k < 0 ∨ iq.len / 64 ≤ k →
      (fm_demodulate fe iq samples).samples k = samples k) := by
  obtain ⟨-, h2, h3, -⟩ := fm_demodulate_trace fe iq samples hL
  refine ⟨h2, ?_, h3⟩
  rw [h2, List.length_map, List.length_range]
  omega

/-- Witness of C5: a buffer of 130 bytes gives two samples. -/
theorem C5_length_law_witness :
    (fm_demodulate exact_env ⟨fun _ => 0, 130, 0⟩ (fun _ => 0)).writes = [0, 1] :=
  (C5_length_law exact_env ⟨fun _ => 0, 130, 0⟩ (fun _ => 0) (by decide)).1.trans (by decide)

/-- C6, as stated, fails: after a capture of one second cancelled before the
first byte (cursor `0`, capacity `2822400`) the processing phase demodulates
`44100` samples and encodes `44100` samples, not `floor(0 / 64) = 0`. -/
theorem C6_counterexample :
    (⟨fun _ => 0, main_iq_len 1, 0⟩ : IQ_DATA).i < (⟨fun _ => 0, main_iq_len 1, 0⟩ : IQ_DATA).len ∧
    (main_process exact_env 1 ⟨fun _ => 0, main_iq_len 1, 0⟩ (fun _ => 0)
      ⟨true, true, true⟩).1.writes.length = 44100 ∧
    (pcm_data exact_env (main_process exact_env 1 ⟨fun _ => 0, main_iq_len 1, 0⟩ (fun _ => 0)
      ⟨true, true, true⟩).1.samples (main_nsamples 1)).length = 44100 ∧
    ¬ ((44100 : Int) = (⟨fun _ => 0, main_iq_len 1, 0⟩ : IQ_DATA).i / 64) := by
  have hlen : main_iq_len 1 = 2822400 := by decide
  have hn : main_nsamples 1 = 44100 := by decide
  refine ⟨by rw [hlen]; decide, ?_, ?_, by decide⟩
  · simp only [main_process]
    rw [(fm_demodulate_trace exact_env ⟨fun _ => 0, main_iq_len 1, 0⟩ (fun _ => 0)
      (by rw [hlen]; decide)).2.1, List.length_map, List.length_range, hlen]
    decide
  · rw [hn, pcm_data, List.length_map, List.length_range]
    decide

/-- C6, amended. The processing phase takes the capacity `iq->len`, not the
cursor `iq->i`, as the input length: on a buffer of capacity `len ≥ 0` it
demodulates `floor(len / 64)` samples, reading the bytes `0`, ...,
`64 * floor(len / 64) - 1` whether they lie below the cursor or not, it encodes
`len_secs * WAV_SAMPLE_RATE` samples, and its result is the same for every
value of the cursor. -/
theorem C6_capacity_not_cursor (fe : FloatEnv) (len_secs : Int) (iq : IQ_DATA)
    (samples0 : Int → ℚ) (fs : FileOutcome) (hlen : 0 ≤ iq.len) :
    ((main_process fe len_secs iq samples0 fs).1.writes.length : Int) = iq.len / 64 ∧
    (main_process fe len_secs iq samples0 fs).1.reads =
      (List.range (64 * (iq.len / 64).toNat)).map (fun k : Nat => (k : Int)) ∧
    (pcm_data fe (main_process fe len_secs iq samples0 fs).1.samples
      (main_nsamples len_secs)).length = (main_nsamples len_secs).toNat ∧
    (∀ c : Int, main_process fe len_secs { iq with i := c } samples0 fs =
      main_process fe len_secs iq samples0 fs) := by
  obtain ⟨h1, h2, -, -⟩ := fm_demodulate_trace fe iq samples0 hlen
  refine ⟨?_, h1, ?_, fun c => ?_⟩
  · simp only [main_process]
    rw [h2, List.length_map, List.length_range]
    omega
  · rw [pcm_data, List.length_map, List.length_range]
  · simp only [main_process, fm_demodulate_cursor]

/-- Witness of the amended C6: a buffer of capacity 64 whose cursor is at 0
gives one demodulated sample. -/
theorem C6_capacity_not_cursor_witness :
    ((main_process exact_env 1 ⟨fun _ => 0, 64, 0⟩ (fun _ => 0)
      ⟨true, true, true⟩).1.writes.length : Int) = 1 :=
  (C6_capacity_not_cursor exact_env 1 ⟨fun _ => 0, 64, 0⟩ (fun _ => 0) ⟨true, true, true⟩
    (by decide)).1.trans (by decide)

/-! ## Lemmas on IEEE 754 rounding -/

theorem round_half_even_nearest (q : ℚ) (z : Int) :
    |((round_half_even q : Int) : ℚ) - q| ≤ |(z : ℚ) - q| := by
  have hf := Int.floor_le q
  have hf2 := Int.lt_floor_add_one q
  have hz : (z : ℚ) ≤ (⌊q⌋ : ℚ) ∨ ((⌊q⌋ : ℚ) + 1 ≤ (z : ℚ)) := by
    rcases le_or_lt z ⌊q⌋ with h | h
    · left; exact_mod_cast h
    · right; exact_mod_cast h
  unfold round_half_even
  split_ifs with h1 h2 h3 <;> push_cast <;>
    rcases hz with hz | hz <;>
    rcases abs_cases ((z : ℚ) - q) with ⟨a1, a2⟩ | ⟨a1, a2⟩ <;>
    rw [a1, abs_le] <;> constructor <;> linarith

theorem round_half_even_int (z : Int) : round_half_even (z : ℚ) = z := by
  simp [round_half_even]

theorem two_zpow_pos (e : Int) : (0 : ℚ) < (2 : ℚ) ^ e := zpow_pos (by norm_num) e

/-- The rounding is nearest among the multiples of the unit in the last
place. -/
theorem rnd_bin_nearest_multiple (p : Nat) (emin : Int) (x : ℚ) (z : Int) :
    |rnd_bin p emin x - x| ≤ |(z : ℚ) * (2 : ℚ) ^ ulp_exp p emin x - x| := by
  have hu := two_zpow_pos (ulp_exp p emin x)
  have h := round_half_even_nearest (x / (2 : ℚ) ^ ulp_exp p emin x) z
  have e1 : ∀ y : ℚ, y * (2 : ℚ) ^ ulp_exp p emin x - x =
      (y - x / (2 : ℚ) ^ ulp_exp p emin x) * (2 : ℚ) ^ ulp_exp p emin x := by
    intro y; field_simp
  unfold rnd_bin
  rw [e1, e1, abs_mul, abs_mul]
  exact mul_le_mul_of_nonneg_right h (abs_nonneg _)

theorem rnd_bin_zero (p : Nat) (emin : Int) : rnd_bin p emin 0 = 0 := by
  have h := round_half_even_int 0
  simp only [Int.cast_zero] at h
  simp [rnd_bin, h]

/-- The unit in the last place of a float `m * 2 ^ t` is at most `2 ^ t`. -/
theorem ulp_exp_le (p : Nat) (emin : Int) (m t : Int) (hm : |m| < 2 ^ p) (ht : emin ≤ t)
    (hm0 : m ≠ 0) : ulp_exp p emin ((m : ℚ) * (2 : ℚ) ^ t) ≤ t := by
  have ht2 := two_zpow_pos t
  have hpos : (0 : ℚ) < |(m : ℚ) * (2 : ℚ) ^ t| := by
    rw [abs_pos]
    exact mul_ne_zero (by exact_mod_cast hm0) ht2.ne'
  have hlt : |(m : ℚ) * (2 : ℚ) ^ t| < ((2 : ℕ) : ℚ) ^ ((p : Int) + t) := by
    rw [abs_mul, abs_of_pos ht2, zpow_add₀ (by norm_num), zpow_natCast]
    have : |(m : ℚ)| < (2 : ℚ) ^ p := by exact_mod_cast hm
    push_cast
    exact mul_lt_mul_of_pos_right this ht2
  have := (Int.lt_zpow_iff_log_lt (by norm_num) hpos).mp hlt
  unfold ulp_exp
  rw [max_le_iff]
  exact ⟨by omega, ht⟩

/-- A float rounds to itself. -/
theorem rnd_bin_of_float (p : Nat) (emin : Int) (x : ℚ) (h : is_float p emin x) :
    rnd_bin p emin x = x := by
  obtain ⟨m, t, hm, ht, rfl⟩ := h
  by_cases hm0 : m = 0
  · subst hm0; simp [rnd_bin_zero]
  have he := ulp_exp_le p emin m t hm ht hm0
  have hu := two_zpow_pos (ulp_exp p emin ((m : ℚ) * (2 : ℚ) ^ t))
  obtain ⟨n, hn⟩ : ∃ n : Nat, t = ulp_exp p emin ((m : ℚ) * (2 : ℚ) ^ t) + n :=
    ⟨(t - ulp_exp p emin ((m : ℚ) * (2 : ℚ) ^ t)).toNat, by omega⟩
  have hq : (m : ℚ) * (2 : ℚ) ^ t / (2 : ℚ) ^ ulp_exp p emin ((m : ℚ) * (2 : ℚ) ^ t) =
      ((m * 2 ^ n : Int) : ℚ) := by
    rw [div_eq_iff hu.ne']
    conv_lhs => rw [hn]
    rw [zpow_add₀ (by norm_num), zpow_natCast]
    push_cast
    ring
  unfold rnd_bin
  rw [hq, round_half_even_int, ← hq]
  field_simp

/-- The scaled argument of the rounding is below `2 ^ p` in magnitude. -/
theorem scaled_lt (p : Nat) (emin : Int) (x : ℚ) :
    |x / (2 : ℚ) ^ ulp_exp p emin x| < (2 : ℚ) ^ p := by
  have hu := two_zpow_pos (ulp_exp p emin x)
  have h1 : |x| < ((2 : ℕ) : ℚ) ^ (Int.log 2 |x| + 1) := Int.lt_zpow_succ_log_self (by norm_num) _
  have h2 : Int.log 2 |x| + 1 ≤ ulp_exp p emin x + p := by
    have : Int.log 2 |x| - ((p : Int) - 1) ≤ ulp_exp p emin x := le_max_left _ _
    omega
  have h3 : ((2 : ℕ) : ℚ) ^ (Int.log 2 |x| + 1) ≤ (2 : ℚ) ^ (ulp_exp p emin x + p) := by
    push_cast
    exact zpow_le_zpow_right₀ (by norm_num) h2
  rw [abs_div, abs_of_pos hu, div_lt_iff₀ hu]
  calc |x| < _ := h1
    _ ≤ _ := h3
    _ = (2 : ℚ) ^ p * (2 : ℚ) ^ ulp_exp p emin x := by
      rw [zpow_add₀ (by norm_num), zpow_natCast]; ring

/-- The rounded value is a float. -/
theorem rnd_bin_is_float (p : Nat) (emin : Int) (hp : 1 ≤ p) (x : ℚ) :
    is_float p emin (rnd_bin p emin x) := by
  have hs := abs_lt.mp (scaled_lt p emin x)
  have n1 := round_half_even_nearest (x / (2 : ℚ) ^ ulp_exp p emin x) (2 ^ p)
  have n2 := round_half_even_nearest (x / (2 : ℚ) ^ ulp_exp p emin x) (-2 ^ p)
  push_cast at n1 n2
  rw [abs_of_pos (a := (2 : ℚ) ^ p - _) (by linarith [hs.2])] at n1
  rw [abs_of_neg (a := -(2 : ℚ) ^ p - _) (by linarith [hs.1])] at n2
  have b1 : ((round_half_even (x / (2 : ℚ) ^ ulp_exp p emin x) : Int) : ℚ) ≤ (2 : ℚ) ^ p := by
    have := (abs_le.mp n1).2; linarith
  have b2 : -(2 : ℚ) ^ p ≤ ((round_half_even (x / (2 : ℚ) ^ ulp_exp p emin x) : Int) : ℚ) := by
    have := (abs_le.mp n2).1; linarith
  have c1 : round_half_even (x / (2 : ℚ) ^ ulp_exp p emin x) ≤ 2 ^ p := by exact_mod_cast b1
  have c2 : -2 ^ p ≤ round_half_even (x / (2 : ℚ) ^ ulp_exp p emin x) := by exact_mod_cast b2
  have hpow : (2 : Int) ^ p = 2 * 2 ^ (p - 1) := by
    rw [← pow_succ']; congr 1; omega
  have hpos : (0 : Int) < 2 ^ (p - 1) := by positivity
  have hemin : emin ≤ ulp_exp p emin x := le_max_right _ _
  rcases eq_or_lt_of_le c1 with e1 | l1
  · refine ⟨2 ^ (p - 1), ulp_exp p emin x + 1, ?_, by omega, ?_⟩
    · rw [abs_of_pos hpos]; omega
    · unfold rnd_bin
      rw [e1, hpow, zpow_add₀ (by norm_num)]
      push_cast; ring
  rcases eq_or_lt_of_le c2 with e2 | l2
  · refine ⟨-2 ^ (p - 1), ulp_exp p emin x + 1, ?_, by omega, ?_⟩
    · rw [abs_neg, abs_of_pos hpos]; omega
    · unfold rnd_bin
      rw [← e2, hpow, zpow_add₀ (by norm_num)]
      push_cast; ring
  · exact ⟨_, ulp_exp p emin x, abs_lt.mpr ⟨l2, l1⟩, hemin, rfl⟩

/-- The rounded value is a float nearest to the argument. -/
theorem rnd_bin_nearest (p : Nat) (emin : Int) (hp : 1 ≤ p) (x f : ℚ)
    (hf : is_float p emin f) : |rnd_bin p emin x - x| ≤ |f - x| := by
  by_cases hx : x = 0
  · subst hx; simp [rnd_bin_zero]
  obtain ⟨m, t, hm, ht, rfl⟩ := hf
  rcases le_or_lt (ulp_exp p emin x) t with hle | hlt
  · obtain ⟨n, hn⟩ : ∃ n : Nat, t = ulp_exp p emin x + n := ⟨(t - ulp_exp p emin x).toNat, by omega⟩
    have := rnd_bin_nearest_multiple p emin x (m * 2 ^ n)
    rw [hn, zpow_add₀ (by norm_num), zpow_natCast]
    push_cast at this
    rw [show (m : ℚ) * ((2 : ℚ) ^ ulp_exp p emin x * (2 : ℚ) ^ n) =
      (m : ℚ) * 2 ^ n * (2 : ℚ) ^ ulp_exp p emin x by ring]
    exact this
  · have hxpos : (0 : ℚ) < |x| := abs_pos.mpr hx
    have he : ulp_exp p emin x = Int.log 2 |x| - ((p : Int) - 1) := by
      unfold ulp_exp at hlt ⊢
      rcases max_cases (Int.log 2 |x| - ((p : Int) - 1)) emin with ⟨h1, _⟩ | ⟨h1, _⟩
      · exact h1
      · rw [h1] at hlt; omega
    have hB : (2 : ℚ) ^ (ulp_exp p emin x + ((p - 1 : Nat) : Int)) ≤ |x| := by
      have := Int.zpow_log_le_self (b := 2) (by norm_num) hxpos
      push_cast at this
      rw [he, show Int.log 2 |x| - ((p : Int) - 1) + ((p - 1 : Nat) : Int) = Int.log 2 |x| by omega]
      exact this
    have ht2 := two_zpow_pos t
    have hf : |(m : ℚ) * (2 : ℚ) ^ t| < (2 : ℚ) ^ (ulp_exp p emin x + ((p - 1 : Nat) : Int)) := by
      rw [abs_mul, abs_of_pos ht2]
      have h1 : |(m : ℚ)| < (2 : ℚ) ^ p := by exact_mod_cast hm
      calc |(m : ℚ)| * (2 : ℚ) ^ t < (2 : ℚ) ^ p * (2 : ℚ) ^ t :=
            mul_lt_mul_of_pos_right h1 ht2
        _ = (2 : ℚ) ^ ((p : Int) + t) := by rw [zpow_add₀ (by norm_num), zpow_natCast]
        _ ≤ _ := zpow_le_zpow_right₀ (by norm_num) (by omega)
    have hBm : (2 : ℚ) ^ (ulp_exp p emin x + ((p - 1 : Nat) : Int)) =
        (((2 : Int) ^ (p - 1) : Int) : ℚ) * (2 : ℚ) ^ ulp_exp p emin x := by
      rw [zpow_add₀ (by norm_num), zpow_natCast]; push_cast; ring
    have n1 := rnd_bin_nearest_multiple p emin x (2 ^ (p - 1))
    have n2 := rnd_bin_nearest_multiple p emin x (-2 ^ (p - 1))
    rw [← hBm] at n1
    rw [show ((-2 ^ (p - 1) : Int) : ℚ) * (2 : ℚ) ^ ulp_exp p emin x =
      -(2 : ℚ) ^ (ulp_exp p emin x + ((p - 1 : Nat) : Int)) by rw [hBm]; push_cast; ring] at n2
    have hfa := abs_lt.mp hf
    rcases lt_or_gt_of_ne hx with hneg | hpos
    · rw [abs_of_neg hneg] at hB
      refine n2.trans ?_
      rw [abs_of_nonneg (by linarith), abs_of_pos (by linarith)]
      linarith
    · rw [abs_of_pos hpos] at hB
      refine n1.trans ?_
      rw [abs_of_nonpos (by linarith), abs_of_neg (by linarith)]
      linarith

/-- Rounding to nearest is monotone. -/
theorem rnd_bin_mono (p : Nat) (emin : Int) (hp : 1 ≤ p) (x y : ℚ) (h : x ≤ y) :
    rnd_bin p emin x ≤ rnd_bin p emin y := by
  rcases eq_or_lt_of_le h with rfl | hlt
  · exact le_rfl
  by_contra hc
  push_neg at hc
  have h1 := rnd_bin_nearest p emin hp x _ (rnd_bin_is_float p emin hp y)
  have h2 := rnd_bin_nearest p emin hp y _ (rnd_bin_is_float p emin hp x)
  have s1 := sq_le_sq.mpr h1
  have s2 := sq_le_sq.mpr h2
  nlinarith

/-- The halves of the integers up to `2 ^ 24` are binary32 values. -/
theorem is_float_half (k : Int) (hk : |k| ≤ 2 ^ 24) : is_float 24 (-149) ((k : ℚ) / 2) := by
  rcases eq_or_lt_of_le hk with he | hlt
  · rcases abs_cases k with ⟨h1, _⟩ | ⟨h1, _⟩
    · refine ⟨2 ^ 23, 0, by norm_num, by norm_num, ?_⟩
      have : k = 2 ^ 24 := by omega
      rw [this]; norm_num
    · refine ⟨-2 ^ 23, 0, by norm_num, by norm_num, ?_⟩
      have : k = -2 ^ 24 := by omega
      rw [this]; norm_num
  · refine ⟨k, -1, hlt, by norm_num, ?_⟩
    rw [zpow_neg_one]; ring

/-- IEEE 754 rounding obeys the laws of `FloatEnv.Sound`. -/
theorem ieee_env_sound (approx : ℚ → ℚ → ℚ) : (ieee_env approx).Sound :=
  { rnd32_mono := rnd_bin_mono 24 (-149) (by norm_num)
    rnd32_idem := fun x =>
      rnd_bin_of_float 24 (-149) _ (rnd_bin_is_float 24 (-149) (by norm_num) x)
    rnd32_half := fun k hk => rnd_bin_of_float 24 (-149) _ (is_float_half k hk)
    rnd64_zero := rnd_bin_zero 53 (-1074)
    atan2f_float := fun y x =>
      rnd_bin_of_float 24 (-149) _ (rnd_bin_is_float 24 (-149) (by norm_num) (approx y x)) }

/-! ## Lemmas on IEEE 754 rounding: the error -/

theorem round_half_even_err (q : ℚ) : |((round_half_even q : Int) : ℚ) - q| ≤ 1 / 2 := by
  have h1 := round_half_even_nearest q ⌊q⌋
  have h2 := round_half_even_nearest q (⌊q⌋ + 1)
  have hf := Int.floor_le q
  have hf2 := Int.lt_floor_add_one q
  rw [abs_of_nonpos (by linarith : ((⌊q⌋ : Int) : ℚ) - q ≤ 0)] at h1
  push_cast at h2
  rw [abs_of_nonneg (by linarith : (0 : ℚ) ≤ (⌊q⌋ : ℚ) + 1 - q)] at h2
  linarith

/-- The rounding error is at most half a unit in the last place. -/
theorem rnd_bin_err (p : Nat) (emin : Int) (x : ℚ) (e : Int) (he : emin ≤ e)
    (hx : |x| < (2 : ℚ) ^ ((p : Int) + e)) :
    |rnd_bin p emin x - x| ≤ (2 : ℚ) ^ e / 2 := by
  by_cases hx0 : x = 0
  · subst hx0
    rw [rnd_bin_zero, sub_zero, abs_zero]
    exact (div_pos (two_zpow_pos e) (by norm_num)).le
  have hpos : (0 : ℚ) < |x| := abs_pos.mpr hx0
  have hlog : Int.log 2 |x| < (p : Int) + e := by
    apply (Int.lt_zpow_iff_log_lt (by norm_num) hpos).mp
    push_cast
    exact hx
  have hu : ulp_exp p emin x ≤ e := by
    unfold ulp_exp
    rw [max_le_iff]
    exact ⟨by omega, he⟩
  have hup := two_zpow_pos (ulp_exp p emin x)
  have hle : (2 : ℚ) ^ ulp_exp p emin x ≤ (2 : ℚ) ^ e := zpow_le_zpow_right₀ (by norm_num) hu
  have hr := round_half_even_err (x / (2 : ℚ) ^ ulp_exp p emin x)
  have e1 : rnd_bin p emin x - x =
      (((round_half_even (x / (2 : ℚ) ^ ulp_exp p emin x) : Int) : ℚ) -
        x / (2 : ℚ) ^ ulp_exp p emin x) * (2 : ℚ) ^ ulp_exp p emin x := by
    unfold rnd_bin; field_simp
  rw [e1, abs_mul, abs_of_pos hup]
  calc |((round_half_even (x / (2 : ℚ) ^ ulp_exp p emin x) : Int) : ℚ) -
        x / (2 : ℚ) ^ ulp_exp p emin x| * (2 : ℚ) ^ ulp_exp p emin x
      ≤ 1 / 2 * (2 : ℚ) ^ ulp_exp p emin x := mul_le_mul_of_nonneg_right hr hup.le
    _ ≤ 1 / 2 * (2 : ℚ) ^ e := mul_le_mul_of_nonneg_left hle (by norm_num)
    _ = (2 : ℚ) ^ e / 2 := by ring

/-- IEEE 754 rounding is accurate in the sense of `FloatEnv.Accurate`. -/
theorem ieee_env_accurate (approx : ℚ → ℚ → ℚ) : (ieee_env approx).Accurate :=
  { err32_15 := fun x hx => by
      have := rnd_bin_err 24 (-149) x (-20) (by norm_num) (by norm_num; linarith)
      norm_num at this ⊢
      exact this
    err32_1e6 := fun x hx => by
      have := rnd_bin_err 24 (-149) x (-4) (by norm_num) (by norm_num; linarith)
      norm_num at this ⊢
      exact this
    err32_8e6 := fun x hx => by
      have := rnd_bin_err 24 (-149) x (-1) (by norm_num) (by norm_num; linarith)
      norm_num at this ⊢
      exact this
    err32_3e7 := fun x hx => by
      have := rnd_bin_err 24 (-149) x 1 (by norm_num) (by norm_num; linarith)
      norm_num at this ⊢
      exact this
    err64_15 := fun x hx => by
      have := rnd_bin_err 53 (-1074) x (-49) (by norm_num) (by norm_num; linarith)
      norm_num at this ⊢
      exact this
    err64_1e6 := fun x hx => by
      have := rnd_bin_err 53 (-1074) x (-33) (by norm_num) (by norm_num; linarith)
      norm_num at this ⊢
      exact this }

/-! ## Lemmas on IEEE 754 rounding: evaluation -/

theorem round_half_even_eq (q : ℚ) (n : Int) (h : |q - n| < 1 / 2) : round_half_even q = n := by
  have e := abs_le.mp (round_half_even_err q)
  obtain ⟨h1, h2⟩ := abs_lt.mp h
  have a1 : ((round_half_even q : Int) : ℚ) < ((n + 1 : Int) : ℚ) := by push_cast; linarith
  have a2 : ((n - 1 : Int) : ℚ) < ((round_half_even q : Int) : ℚ) := by push_cast; linarith
  have b1 : round_half_even q < n + 1 := by exact_mod_cast a1
  have b2 : n - 1 < round_half_even q := by exact_mod_cast a2
  omega

/-- The rounding of `x`, given the binade of `x` and the nearest multiple of
the unit in the last place. -/
theorem rnd_bin_eval (p : Nat) (emin : Int) (x : ℚ) (e n : Int) (he : emin ≤ e)
    (h1 : (2 : ℚ) ^ ((p : Int) - 1 + e) ≤ |x|) (h2 : |x| < (2 : ℚ) ^ ((p : Int) + e))
    (hn : |x / (2 : ℚ) ^ e - n| < 1 / 2) : rnd_bin p emin x = (n : ℚ) * (2 : ℚ) ^ e := by
  have hpos : (0 : ℚ) < |x| := lt_of_lt_of_le (two_zpow_pos _) h1
  have l1 : Int.log 2 |x| < (p : Int) + e := by
    apply (Int.lt_zpow_iff_log_lt (by norm_num) hpos).mp
    push_cast
    exact h2
  have l2 : (p : Int) - 1 + e ≤ Int.log 2 |x| := by
    apply (Int.zpow_le_iff_le_log (by norm_num) hpos).mp
    push_cast
    exact h1
  have hu : ulp_exp p emin x = e := by
    unfold ulp_exp
    rw [show Int.log 2 |x| - ((p : Int) - 1) = e by omega]
    exact max_eq_left he
  unfold rnd_bin
  rw [hu, round_half_even_eq _ n hn]

/-! ## Lemmas on the demodulator: constant input -/

theorem fm_pair_angle (fe : FloatEnv) (iq : IQ_DATA) (i j : Int) (st : DemodState × ℚ) :
    fm_pair fe iq i j st =
      ({ st.1 with
          last_angle := pair_angle fe iq (32 * i + j)
          reads := st.1.reads ++ [i * 2 * DECIMATION_FACTOR + 2 * j,
            i * 2 * DECIMATION_FACTOR + 2 * j + 1]
          freqs := st.1.freqs ++
            [(fm_freq fe st.1.last_angle (pair_angle fe iq (32 * i + j))).1] },
       fe.rnd32 (st.2 + (fm_freq fe st.1.last_angle (pair_angle fe iq (32 * i + j))).1)) := by
  have e1 : i * 2 * DECIMATION_FACTOR + 2 * j = 2 * (32 * i + j) := by
    simp only [DECIMATION_FACTOR]; ring
  simp only [fm_pair, pair_angle, e1]

theorem ref_angle_succ (fe : FloatEnv) (iq : IQ_DATA) (k : Int) (hk : 0 ≤ k) :
    ref_angle fe iq (k + 1) = pair_angle fe iq k := by
  have : ¬ k + 1 = 0 := by omega
  simp only [ref_angle, this, if_false, add_sub_cancel_right]

/-- The frequencies of one group, pair by pair. -/
theorem fm_pairs_freqs (fe : FloatEnv) (iq : IQ_DATA) (i : Nat) (st : DemodState)
    (hst : st.last_angle = ref_angle fe iq (32 * (i : Int))) :
    ∀ m : Nat,
      (fm_pairs fe iq i m (st, 0)).1.last_angle = ref_angle fe iq (32 * (i : Int) + m) ∧
      (fm_pairs fe iq i m (st, 0)).1.freqs = st.freqs ++ (List.range m).map (fun j : Nat =>
        (fm_freq fe (ref_angle fe iq (32 * (i : Int) + j))
          (pair_angle fe iq (32 * (i : Int) + j))).1) := by
  intro m
  induction m with
  | zero => simp [fm_pairs, hst]
  | succ m ih =>
    obtain ⟨h1, h2⟩ := ih
    rw [fm_pairs_succ, fm_pair_angle]
    simp only [h1, h2]
    refine ⟨?_, ?_⟩
    · rw [show 32 * (i : Int) + ((m + 1 : Nat) : Int) = (32 * (i : Int) + m) + 1 by
        push_cast; ring, ref_angle_succ fe iq _ (by omega)]
    · rw [List.range_succ, List.map_append, List.append_assoc]
      rfl

/-- The frequencies of a run: the `k`-th one compares the angle of the `k`-th
pair with the reference `ref_angle`. -/
theorem fm_groups_freqs (fe : FloatEnv) (iq : IQ_DATA) (samples : Int → ℚ) :
    ∀ g : Nat,
      (fm_groups fe iq g (fm_init samples)).last_angle = ref_angle fe iq (32 * (g : Int)) ∧
      (fm_groups fe iq g (fm_init samples)).freqs = (List.range (32 * g)).map (fun k : Nat =>
        (fm_freq fe (ref_angle fe iq k) (pair_angle fe iq k)).1) := by
  intro g
  induction g with
  | zero => simp [fm_groups, fm_init, ref_angle]
  | succ g ih =>
    obtain ⟨h1, h2⟩ := ih
    obtain ⟨p1, p2⟩ := fm_pairs_freqs fe iq g (fm_groups fe iq g (fm_init samples)) h1 32
    rw [fm_groups_succ, fm_group_eq]
    simp only [p1, p2, h2]
    refine ⟨?_, ?_⟩
    · congr 1
    · rw [show 32 * (g + 1) = 32 * g + 32 by ring, List.range_add, List.map_append,
        List.map_map]
      congr 1

/-- The samples of a run, group by group: what holds of the sample each group
writes holds of the array at the end. -/
theorem fm_groups_samples (fe : FloatEnv) (iq : IQ_DATA) (samples : Int → ℚ)
    (P : Int → ℚ → Prop) (N : Nat)
    (h : ∀ i : Nat, i < N →
      P i ((fm_group fe iq i (fm_groups fe iq i (fm_init samples))).samples i)) :
    ∀ g : Nat, g ≤ N → ∀ k : Int, 0 ≤ k → k < g →
      P k ((fm_groups fe iq g (fm_init samples)).samples k) := by
  intro g
  induction g with
  | zero => intro _ k h0 h1; simp only [Nat.cast_zero] at h1; omega
  | succ g ih =>
    intro hg k h0 h1
    rw [fm_groups_succ]
    by_cases hk : k = (g : Int)
    · rw [hk]
      exact h g (by omega)
    · rw [(fm_group_trace fe iq g (fm_groups fe iq g (fm_init samples))).2.2.1 k hk]
      exact ih (by omega) k h0 (by push_cast at h1; omega)

/-- Every sample a run writes is a rounded value. -/
theorem fm_groups_samples_rnd (fe : FloatEnv) (iq : IQ_DATA) (samples : Int → ℚ) (g : Nat)
    (k : Int) (h0 : 0 ≤ k) (h1 : k < g) :
    ∃ x : ℚ, (fm_groups fe iq g (fm_init samples)).samples k = fe.rnd32 x := by
  refine fm_groups_samples fe iq samples (fun _ v => ∃ x : ℚ, v = fe.rnd32 x) g ?_ g
    (le_refl _) k h0 h1
  intro i _
  rw [fm_group_eq]
  simp only [store, if_true]
  exact ⟨_, rfl⟩

/-! ## Lemmas on the demodulator: one step in rounded arithmetic -/

theorem M_PI_bounds : (314 : ℚ) / 100 < M_PI ∧ M_PI < 315 / 100 := by
  constructor <;> norm_num [M_PI]

theorem SDR_SAMPLE_RATE_eq : (SDR_SAMPLE_RATE : ℚ) = 1411200 := by
  norm_num [SDR_SAMPLE_RATE, DECIMATION_FACTOR, WAV_SAMPLE_RATE]

theorem fm_freq_fst (fe : FloatEnv) (L A : ℚ) :
    (fm_freq fe L A).1 =
      fe.rnd32 (fe.rnd64 (fe.rnd32 ((SDR_SAMPLE_RATE : ℚ) * fm_diff fe L A) / (2 * M_PI))) :=
  rfl

/-- One unwrap step in rounded arithmetic, both angles within `M_PI` of zero:
the difference used is within `2^-19` of the raw difference, of the raw
difference minus `2 * M_PI` or of the raw difference plus `2 * M_PI`, and its
magnitude is at most `M_PI + 2^-18`. -/
theorem fm_diff_near {fe : FloatEnv} (hacc : fe.Accurate) (L A : ℚ) (hL : |L| ≤ M_PI)
    (hA : |A| ≤ M_PI) :
    |fm_diff fe L A| ≤ M_PI + 1 / 2 ^ 18 ∧
    (|fm_diff fe L A - (A - L)| ≤ 1 / 2 ^ 19 ∨
      |fm_diff fe L A - (A - L - 2 * M_PI)| ≤ 1 / 2 ^ 19 ∨
      |fm_diff fe L A - (A - L + 2 * M_PI)| ≤ 1 / 2 ^ 19) := by
  obtain ⟨p1, p2⟩ := M_PI_bounds
  obtain ⟨l1, l2⟩ := abs_le.mp hL
  obtain ⟨a1, a2⟩ := abs_le.mp hA
  have h0 := abs_le.mp (hacc.err32_15 (A - L) (abs_le.mpr ⟨by linarith, by linarith⟩))
  norm_num at h0 ⊢
  simp only [fm_diff, fm_freq]
  by_cases c1 : fe.rnd32 (A - L) > M_PI
  · rw [if_pos c1]
    have h1 := abs_le.mp (hacc.err64_15 (L + 2 * M_PI) (abs_le.mpr ⟨by linarith, by linarith⟩))
    norm_num at h1
    have h2 := abs_le.mp (hacc.err32_15 (fe.rnd64 (L + 2 * M_PI))
      (abs_le.mpr ⟨by linarith, by linarith⟩))
    norm_num at h2
    have h3 := abs_le.mp (hacc.err32_15 (A - fe.rnd32 (fe.rnd64 (L + 2 * M_PI)))
      (abs_le.mpr ⟨by linarith, by linarith⟩))
    norm_num at h3
    refine ⟨abs_le.mpr ⟨by linarith, by linarith⟩, Or.inr (Or.inl ?_)⟩
    exact abs_le.mpr ⟨by linarith, by linarith⟩
  · rw [if_neg c1]
    by_cases c2 : fe.rnd32 (A - L) < -M_PI
    · rw [if_pos c2]
      have h1 := abs_le.mp (hacc.err64_15 (L - 2 * M_PI) (abs_le.mpr ⟨by linarith, by linarith⟩))
      norm_num at h1
      have h2 := abs_le.mp (hacc.err32_15 (fe.rnd64 (L - 2 * M_PI))
        (abs_le.mpr ⟨by linarith, by linarith⟩))
      norm_num at h2
      have h3 := abs_le.mp (hacc.err32_15 (A - fe.rnd32 (fe.rnd64 (L - 2 * M_PI)))
        (abs_le.mpr ⟨by linarith, by linarith⟩))
      norm_num at h3
      refine ⟨abs_le.mpr ⟨by linarith, by linarith⟩, Or.inr (Or.inr ?_)⟩
      exact abs_le.mpr ⟨by linarith, by linarith⟩
    · rw [if_neg c2]
      push_neg at c1 c2
      refine ⟨abs_le.mpr ⟨by linarith, by linarith⟩, Or.inl ?_⟩
      exact abs_le.mpr ⟨by linarith, by linarith⟩

/-- The frequency computed from a difference of magnitude at most `4` is
within `1 / 10` of `SDR_SAMPLE_RATE * difference / (2 * M_PI)`. -/
theorem fm_freq_near {fe : FloatEnv} (hacc : fe.Accurate) (L A : ℚ)
    (hD : |fm_diff fe L A| ≤ 4) :
    |(fm_freq fe L A).1 - (SDR_SAMPLE_RATE : ℚ) * fm_diff fe L A / (2 * M_PI)| ≤ 1 / 10 := by
  obtain ⟨p1, p2⟩ := M_PI_bounds
  obtain ⟨d1, d2⟩ := abs_le.mp hD
  have hs : (SDR_SAMPLE_RATE : ℚ) = 1411200 := by
    norm_num [SDR_SAMPLE_RATE, DECIMATION_FACTOR, WAV_SAMPLE_RATE]
  rw [fm_freq_fst, hs]
  generalize fm_diff fe L A = D at d1 d2
  have hpi : (0 : ℚ) < 2 * M_PI := by linarith
  have h1 := abs_le.mp (hacc.err32_8e6 (1411200 * D) (abs_le.mpr ⟨by linarith, by linarith⟩))
  have q1 : fe.rnd32 (1411200 * D) / (2 * M_PI) - 1411200 * D / (2 * M_PI) ≤ 1 / 24 := by
    rw [← sub_div, div_le_iff₀ hpi]
    linarith
  have q2 : -(1 / 24) ≤ fe.rnd32 (1411200 * D) / (2 * M_PI) - 1411200 * D / (2 * M_PI) := by
    rw [← sub_div, le_div_iff₀ hpi]
    linarith
  have b1 : 1411200 * D / (2 * M_PI) ≤ 900000 := by
    rw [div_le_iff₀ hpi]; linarith
  have b2 : -900000 ≤ 1411200 * D / (2 * M_PI) := by
    rw [le_div_iff₀ hpi]; linarith
  have h2 := abs_le.mp (hacc.err64_1e6 (fe.rnd32 (1411200 * D) / (2 * M_PI))
    (abs_le.mpr ⟨by linarith, by linarith⟩))
  norm_num at h2
  have h3 := abs_le.mp (hacc.err32_1e6 (fe.rnd64 (fe.rnd32 (1411200 * D) / (2 * M_PI)))
    (abs_le.mpr ⟨by linarith, by linarith⟩))
  exact abs_le.mpr ⟨by linarith, by linarith⟩

/-- One step in rounded arithmetic between angles that advance by `d` modulo
`2 * M_PI` up to `2^-19`, with `d` away from `M_PI` by `2^-16`: the difference
used is within `2^-18` of `d`. -/
theorem fm_diff_advances {fe : FloatEnv} (hacc : fe.Accurate) (d L A : ℚ)
    (hd : |d| ≤ M_PI - 1 / 2 ^ 16) (hL : |L| ≤ M_PI) (hA : |A| ≤ M_PI)
    (h : near_advances d L A) : |fm_diff fe L A - d| ≤ 1 / 2 ^ 18 := by
  obtain ⟨p1, p2⟩ := M_PI_bounds
  obtain ⟨hD, hc⟩ := fm_diff_near hacc L A hL hA
  unfold near_advances at h
  norm_num at hD hc h hd ⊢
  obtain ⟨d1, d2⟩ := abs_le.mp hd
  obtain ⟨D1, D2⟩ := abs_le.mp hD
  rcases hc with c | c | c <;> rcases h with a | a | a <;>
    obtain ⟨c1, c2⟩ := abs_le.mp c <;> obtain ⟨a1, a2⟩ := abs_le.mp a <;>
    exact abs_le.mpr ⟨by linarith, by linarith⟩

/-- The frequency of such a step is within `1` of
`SDR_SAMPLE_RATE * d / (2 * M_PI)`. -/
theorem fm_freq_advances_near {fe : FloatEnv} (hacc : fe.Accurate) (d L A : ℚ)
    (hd : |d| ≤ M_PI - 1 / 2 ^ 16) (hL : |L| ≤ M_PI) (hA : |A| ≤ M_PI)
    (h : near_advances d L A) :
    |(fm_freq fe L A).1 - (SDR_SAMPLE_RATE : ℚ) * d / (2 * M_PI)| ≤ 1 := by
  obtain ⟨p1, p2⟩ := M_PI_bounds
  have hD := (fm_diff_near hacc L A hL hA).1
  have hdd := fm_diff_advances hacc d L A hd hL hA h
  norm_num at hD hdd
  have hn := fm_freq_near hacc L A (hD.trans (by linarith))
  rw [SDR_SAMPLE_RATE_eq] at hn ⊢
  obtain ⟨e1, e2⟩ := abs_le.mp hdd
  obtain ⟨n1, n2⟩ := abs_le.mp hn
  have hpi : (0 : ℚ) < 2 * M_PI := by linarith
  have b1 : 1411200 * fm_diff fe L A / (2 * M_PI) - 1411200 * d / (2 * M_PI) ≤ 9 / 10 := by
    rw [← sub_div, div_le_iff₀ hpi]; linarith
  have b2 : -(9 / 10) ≤ 1411200 * fm_diff fe L A / (2 * M_PI) - 1411200 * d / (2 * M_PI) := by
    rw [← sub_div, le_div_iff₀ hpi]; linarith
  exact abs_le.mpr ⟨by linarith, by linarith⟩

/-! ## Lemmas on the demodulator: a run in rounded arithmetic -/

/-- The running sum `freq_avg` of one group in rounded arithmetic, when every
frequency of the group is within `ε` of `F`: after `m` pairs it is within
`m * (ε + 1)` of `m * F`. -/
theorem fm_pairs_sum_near {fe : FloatEnv} (hacc : fe.Accurate) (iq : IQ_DATA) (i : Nat)
    (st : DemodState) (hst : st.last_angle = ref_angle fe iq (32 * (i : Int)))
    (F ε : ℚ) (hε : 0 ≤ ε) (hF : |F| + ε + 1 ≤ 900000)
    (hf : ∀ j : Nat, j < 32 → |(fm_freq fe (ref_angle fe iq (32 * (i : Int) + j))
      (pair_angle fe iq (32 * (i : Int) + j))).1 - F| ≤ ε) :
    ∀ m : Nat, m ≤ 32 → |(fm_pairs fe iq i m (st, 0)).2 - m * F| ≤ m * (ε + 1) := by
  intro m
  induction m with
  | zero => intro _; simp [fm_pairs]
  | succ m ih =>
    intro hm
    have ih := ih (by omega)
    obtain ⟨h1, -⟩ := fm_pairs_freqs fe iq i st hst m
    have hb := hf m (by omega)
    rw [fm_pairs_succ, fm_pair_angle]
    simp only [h1]
    generalize (fm_freq fe (ref_angle fe iq (32 * (i : Int) + m))
      (pair_angle fe iq (32 * (i : Int) + m))).1 = f at hb
    generalize (fm_pairs fe iq i m (st, 0)).2 = acc at ih
    have hm1 : (m : ℚ) ≤ 31 := by exact_mod_cast (by omega : m ≤ 31)
    have hm0 : (0 : ℚ) ≤ m := Nat.cast_nonneg m
    obtain ⟨i1, i2⟩ := abs_le.mp ih
    obtain ⟨b1, b2⟩ := abs_le.mp hb
    obtain ⟨F1, F2⟩ := abs_le.mp (le_refl |F|)
    have hF0 : 0 ≤ |F| := abs_nonneg F
    have mF1 : (m : ℚ) * F ≤ m * |F| := mul_le_mul_of_nonneg_left F2 hm0
    have mF2 : -((m : ℚ) * |F|) ≤ m * F := by
      have := mul_le_mul_of_nonneg_left F1 hm0
      linarith
    have mF3 : (m : ℚ) * |F| ≤ 31 * |F| := mul_le_mul_of_nonneg_right hm1 hF0
    have mε : (m : ℚ) * ε ≤ 31 * ε := mul_le_mul_of_nonneg_right hm1 hε
    have hx : |acc + f| ≤ 30000000 := abs_le.mpr ⟨by linarith, by linarith⟩
    obtain ⟨e1, e2⟩ := abs_le.mp (hacc.err32_3e7 _ hx)
    push_cast
    exact abs_le.mpr ⟨by linarith, by linarith⟩

/-- The sample one group writes, when every frequency of the group is within
`ε` of `F`: it is within `(ε + 21 / 10) / 75000` of `F / 75000`. -/
theorem fm_group_sample_near {fe : FloatEnv} (hacc : fe.Accurate) (iq : IQ_DATA) (i : Nat)
    (st : DemodState) (hst : st.last_angle = ref_angle fe iq (32 * (i : Int)))
    (F ε : ℚ) (hε : 0 ≤ ε) (hF : |F| + ε + 1 ≤ 900000)
    (hf : ∀ j : Nat, j < 32 → |(fm_freq fe (ref_angle fe iq (32 * (i : Int) + j))
      (pair_angle fe iq (32 * (i : Int) + j))).1 - F| ≤ ε) :
    |(fm_group fe iq i st).samples i - F / 75000| ≤ (ε + 21 / 10) / 75000 := by
  have hs := fm_pairs_sum_near hacc iq i st hst F ε hε hF hf 32 (le_refl _)
  rw [fm_group_eq]
  simp only [store, if_true]
  generalize (fm_pairs fe iq i 32 (st, 0)).2 = acc at hs
  push_cast at hs
  obtain ⟨s1, s2⟩ := abs_le.mp hs
  obtain ⟨F1, F2⟩ := abs_le.mp (le_refl |F|)
  obtain ⟨h1, h2⟩ := abs_le.mp (hacc.err32_1e6 (acc / 32)
    (abs_le.mpr ⟨by linarith, by linarith⟩))
  have h3 := abs_le.mp (hacc.err32_15 (fe.rnd32 (acc / 32) / 75000)
    (abs_le.mpr ⟨by linarith, by linarith⟩))
  norm_num at h3
  exact abs_le.mpr ⟨by linarith, by linarith⟩

/-- The angles of the 90-degree pattern: `M_PI / 4`, `3 * M_PI / 4`,
`-3 * M_PI / 4`, `-M_PI / 4`, and again. -/
theorem tone_buf_angle (len c k : Int) :
    pair_angle exact_env ⟨tone_buf, len, c⟩ k =
      if k % 4 = 0 then M_PI / 4 else if k % 4 = 1 then 3 * M_PI / 4
      else if k % 4 = 2 then -(3 * M_PI / 4) else -(M_PI / 4) := by
  have hk : k % 4 = 0 ∨ k % 4 = 1 ∨ k % 4 = 2 ∨ k % 4 = 3 := by omega
  rcases hk with h | h | h | h
  · have e1 : (2 * k) % 8 = 0 := by omega
    have e2 : (2 * k + 1) % 8 = 1 := by omega
    have b1 : tone_buf (2 * k) = 255 := by simp only [tone_buf, e1]; rfl
    have b2 : tone_buf (2 * k + 1) = 255 := by simp only [tone_buf, e2]; rfl
    simp only [pair_angle, b1, b2, h, exact_env, diag_atan2f]
    norm_num
  · have e1 : (2 * k) % 8 = 2 := by omega
    have e2 : (2 * k + 1) % 8 = 3 := by omega
    have b1 : tone_buf (2 * k) = 0 := by simp only [tone_buf, e1]; rfl
    have b2 : tone_buf (2 * k + 1) = 255 := by simp only [tone_buf, e2]; rfl
    simp only [pair_angle, b1, b2, h, exact_env, diag_atan2f]
    norm_num
  · have e1 : (2 * k) % 8 = 4 := by omega
    have e2 : (2 * k + 1) % 8 = 5 := by omega
    have b1 : tone_buf (2 * k) = 0 := by simp only [tone_buf, e1]; rfl
    have b2 : tone_buf (2 * k + 1) = 0 := by simp only [tone_buf, e2]; rfl
    simp only [pair_angle, b1, b2, h, exact_env, diag_atan2f]
    norm_num
  · have e1 : (2 * k) % 8 = 6 := by omega
    have e2 : (2 * k + 1) % 8 = 7 := by omega
    have b1 : tone_buf (2 * k) = 255 := by simp only [tone_buf, e1]; rfl
    have b2 : tone_buf (2 * k + 1) = 0 := by simp only [tone_buf, e2]; rfl
    simp only [pair_angle, b1, b2, h, exact_env, diag_atan2f]
    norm_num

/-- The angles of the 90-degree pattern advance by `M_PI / 2` modulo
`2 * M_PI`. -/
theorem tone_buf_advances (len c k : Int) :
    advances (M_PI / 2) (pair_angle exact_env ⟨tone_buf, len, c⟩ k)
      (pair_angle exact_env ⟨tone_buf, len, c⟩ (k + 1)) := by
  rw [tone_buf_angle, tone_buf_angle]
  have hk : k % 4 = 0 ∨ k % 4 = 1 ∨ k % 4 = 2 ∨ k % 4 = 3 := by omega
  rcases hk with h | h | h | h
  · have e : (k + 1) % 4 = 1 := by omega
    simp only [h, e, advances]
    norm_num
    left; ring
  · have e : (k + 1) % 4 = 2 := by omega
    simp only [h, e, advances]
    norm_num
    right; right; ring
  · have e : (k + 1) % 4 = 3 := by omega
    simp only [h, e, advances]
    norm_num
    left; ring
  · have e : (k + 1) % 4 = 0 := by omega
    simp only [h, e, advances]
    norm_num
    left; ring

/-- Angles that advance by `d` modulo `2 * M_PI`, each rounded to within
`2^-21`, advance by `d` modulo `2 * M_PI` up to `2^-19`. -/
theorem near_advances_of_advances (d L A L2 A2 : ℚ) (h : advances d L A)
    (hL : |L2 - L| ≤ 1 / 2 ^ 21) (hA : |A2 - A| ≤ 1 / 2 ^ 21) : near_advances d L2 A2 := by
  obtain ⟨l1, l2⟩ := abs_le.mp hL
  obtain ⟨a1, a2⟩ := abs_le.mp hA
  unfold near_advances
  norm_num at l1 l2 a1 a2 ⊢
  rcases h with h | h | h
  · exact Or.inl (abs_le.mpr ⟨by linarith, by linarith⟩)
  · exact Or.inr (Or.inl (abs_le.mpr ⟨by linarith, by linarith⟩))
  · exact Or.inr (Or.inr (abs_le.mpr ⟨by linarith, by linarith⟩))

/-- The angles of the 90-degree pattern in IEEE 754 arithmetic are within
`2^-21` of the odd multiples of `M_PI / 4`. -/
theorem tone_buf_ieee_angle (len c k : Int) :
    |pair_angle (ieee_env diag_atan2f) ⟨tone_buf, len, c⟩ k -
      pair_angle exact_env ⟨tone_buf, len, c⟩ k| ≤ 1 / 2 ^ 21 := by
  have e : pair_angle (ieee_env diag_atan2f) ⟨tone_buf, len, c⟩ k =
      (ieee_env diag_atan2f).rnd32 (pair_angle exact_env ⟨tone_buf, len, c⟩ k) := rfl
  rw [e]
  apply (ieee_env_accurate diag_atan2f).err32_15
  rw [tone_buf_angle]
  split_ifs <;> norm_num [M_PI, abs_le]

theorem tone_buf_ieee_range (len c k : Int) :
    |pair_angle (ieee_env diag_atan2f) ⟨tone_buf, len, c⟩ k| ≤ M_PI := by
  have h := abs_le.mp (tone_buf_ieee_angle len c k)
  rw [tone_buf_angle] at h
  rw [abs_le]
  split_ifs at h <;> norm_num [M_PI] at h ⊢ <;> constructor <;> linarith

theorem tone_buf_ieee_advances (len c k : Int) :
    near_advances (M_PI / 2) (pair_angle (ieee_env diag_atan2f) ⟨tone_buf, len, c⟩ k)
      (pair_angle (ieee_env diag_atan2f) ⟨tone_buf, len, c⟩ (k + 1)) :=
  near_advances_of_advances _ _ _ _ _ (tone_buf_advances len c k)
    (tone_buf_ieee_angle len c k) (tone_buf_ieee_angle len c (k + 1))

theorem M_PI_half_le : |M_PI / 2| ≤ M_PI - 1 / 2 ^ 16 := by
  norm_num [M_PI, abs_le]

/-- The demodulator on a steady tone in rounded arithmetic. -/
theorem fm_demodulate_tone_near {fe : FloatEnv} (hacc : fe.Accurate) (iq : IQ_DATA)
    (samples : Int → ℚ) (d : ℚ) (hlen : 0 ≤ iq.len) (hd : |d| ≤ M_PI - 1 / 2 ^ 16)
    (hrange : ∀ k : Int, |pair_angle fe iq k| ≤ M_PI)
    (hstep : ∀ k : Int, 0 ≤ k → 2 * (k + 1) + 1 < iq.len →
      near_advances d (pair_angle fe iq k) (pair_angle fe iq (k + 1))) :
    (∀ n : Nat, 1 ≤ n → n < (fm_demodulate fe iq samples).freqs.length →
      ∃ f : ℚ, (fm_demodulate fe iq samples).freqs[n]? = some f ∧
        |f - (SDR_SAMPLE_RATE : ℚ) * d / (2 * M_PI)| ≤ 1) ∧
    (∀ m : Int, 1 ≤ m → m < iq.len / 64 →
      |(fm_demodulate fe iq samples).samples m -
        (SDR_SAMPLE_RATE : ℚ) * d / (2 * M_PI * (FREQ_DEVIATION : ℚ))| ≤ 1 / 20000) := by
  obtain ⟨p1, p2⟩ := M_PI_bounds
  have hG : (((iq.len / 64).toNat : Nat) : Int) = iq.len / 64 :=
    Int.toNat_of_nonneg (by omega)
  have key : ∀ k : Int, 1 ≤ k → k < 32 * ((iq.len / 64).toNat : Nat) →
      |(fm_freq fe (ref_angle fe iq k) (pair_angle fe iq k)).1 -
        (SDR_SAMPLE_RATE : ℚ) * d / (2 * M_PI)| ≤ 1 := by
    intro k hk1 hk2
    have hs := hstep (k - 1) (by omega) (by omega)
    have hr := ref_angle_succ fe iq (k - 1) (by omega)
    rw [sub_add_cancel] at hs hr
    rw [hr]
    exact fm_freq_advances_near hacc d _ _ hd (hrange _) (hrange _) hs
  have hFb : |(SDR_SAMPLE_RATE : ℚ) * d / (2 * M_PI)| + 1 + 1 ≤ 900000 := by
    norm_num at hd
    obtain ⟨d1, d2⟩ := abs_le.mp hd
    have hpi : (0 : ℚ) < 2 * M_PI := by linarith
    rw [SDR_SAMPLE_RATE_eq]
    have b1 : 1411200 * d / (2 * M_PI) ≤ 705600 := by
      rw [div_le_iff₀ hpi]; linarith
    have b2 : -705600 ≤ 1411200 * d / (2 * M_PI) := by
      rw [le_div_iff₀ hpi]; linarith
    have := abs_le.mpr ⟨b2, b1⟩
    linarith
  have hf := (fm_groups_freqs fe iq samples (iq.len / 64).toNat).2
  rw [fm_demodulate_eq, Int.tdiv_eq_ediv hlen (by decide)]
  refine ⟨?_, ?_⟩
  · intro n hn1 hn
    rw [hf] at hn ⊢
    rw [List.length_map, List.length_range] at hn
    refine ⟨_, by rw [List.getElem?_map, List.getElem?_range hn]; rfl, ?_⟩
    exact key n (by exact_mod_cast hn1) (by exact_mod_cast hn)
  · intro m hm1 hm2
    have := fm_groups_samples fe iq samples
      (fun k v => 1 ≤ k → |v - (SDR_SAMPLE_RATE : ℚ) * d / (2 * M_PI) / 75000| ≤ 1 / 20000)
      (iq.len / 64).toNat ?_ (iq.len / 64).toNat (le_refl _) m (by omega)
      (by rw [hG]; exact hm2) hm1
    · rw [show (SDR_SAMPLE_RATE : ℚ) * d / (2 * M_PI * (FREQ_DEVIATION : ℚ)) =
        (SDR_SAMPLE_RATE : ℚ) * d / (2 * M_PI) / 75000 by
          rw [div_div]; norm_num [FREQ_DEVIATION]]
      exact this
    · intro i hi hi1
      have hi1 : 1 ≤ i := by exact_mod_cast hi1
      have hfi : ∀ j : Nat, j < 32 → |(fm_freq fe (ref_angle fe iq (32 * (i : Int) + j))
          (pair_angle fe iq (32 * (i : Int) + j))).1 -
            (SDR_SAMPLE_RATE : ℚ) * d / (2 * M_PI)| ≤ 1 := by
        intro j hj
        exact key _ (by omega) (by omega)
      have := fm_group_sample_near hacc iq i (fm_groups fe iq i (fm_init samples))
        (fm_groups_freqs fe iq samples i).1 _ 1 (by norm_num) hFb hfi
      exact this.trans (by norm_num)

/-- The value `4.704` is in no binary format. -/
theorem not_is_float_4704 (p : Nat) (emin : Int) : ¬ is_float p emin (1411200 / 4 / 75000) := by
  rintro ⟨m, t, -, -, h⟩
  have hc : IsCoprime (5 : Int) 2 := ⟨1, -2, by norm_num⟩
  obtain ⟨n, rfl | rfl⟩ := Int.eq_nat_or_neg t
  · rw [zpow_natCast] at h
    have h2 : ((588 : Int) : ℚ) = ((125 * (m * 2 ^ n) : Int) : ℚ) := by
      push_cast
      rw [← h]; norm_num
    have h3 : (588 : Int) = 125 * (m * 2 ^ n) := by exact_mod_cast h2
    have h4 : (125 : Int) ∣ 588 := ⟨_, h3⟩
    revert h4
    decide
  · rw [zpow_neg, zpow_natCast] at h
    have hp : (2 : ℚ) ^ n ≠ 0 := by positivity
    have h2 : ((588 * 2 ^ n : Int) : ℚ) = ((125 * m : Int) : ℚ) := by
      push_cast
      field_simp at h
      linarith
    have h3 : (588 : Int) * 2 ^ n = 125 * m := by exact_mod_cast h2
    have h4 : (5 : Int) ∣ 588 * 2 ^ n := ⟨25 * m, by rw [h3]; ring⟩
    have h5 : (5 : Int) ∣ 588 := (hc.pow_right (n := n)).dvd_of_dvd_mul_right h4
    revert h5
    decide

/-! ## The demodulator: claim C8 -/

/-- C8, as stated, fails: three groups of the 90-degree pattern in
IEEE 754 arithmetic. The sample at index `1` is a binary32 value, and
`1411200 / 4 / 75000 = 4.704` is not one: the sample is not `4.704`. -/
theorem C8_counterexample :
    (fm_demodulate (ieee_env diag_atan2f) ⟨tone_buf, 192, 0⟩ (fun _ => 0)).samples 1 ≠
      1411200 / 4 / 75000 := by
  intro h
  have hg : (Int.tdiv (⟨tone_buf, 192, 0⟩ : IQ_DATA).len 64).toNat = 3 := by decide
  rw [fm_demodulate_eq, hg] at h
  obtain ⟨x, hx⟩ := fm_groups_samples_rnd (ieee_env diag_atan2f) ⟨tone_buf, 192, 0⟩
    (fun _ => 0) 3 1 (by decide) (by decide)
  rw [h] at hx
  have := rnd_bin_is_float 24 (-149) (by norm_num) x
  rw [show rnd_bin 24 (-149) x = (ieee_env diag_atan2f).rnd32 x from rfl, ← hx] at this
  exact not_is_float_4704 24 (-149) this

/-- C8, amended. In arithmetic rounded to within half a unit
in the last place, on a buffer whose pair angles lie in `[-M_PI, M_PI]` and
advance from each pair to the next by a constant `d` with
`|d| ≤ M_PI - 2^-16`, taken modulo `2 * M_PI`, up to `2^-19`, every value of
`freq` after the first pair is within `1` of `SDR_SAMPLE_RATE * d / (2 * M_PI)`,
also where the raw angle jumps across the branch cut, and every output sample
at index `≥ 1` is within `1 / 20000` of
`SDR_SAMPLE_RATE * d / (2 * M_PI * FREQ_DEVIATION)`. In IEEE 754 arithmetic, on a
buffer of any length filled with the pattern `(255,255, 0,255, 0,0, 255,0)`,
whose angles are the binary32 values nearest to the odd multiples of
`M_PI / 4`, every output sample at index `≥ 1` is within `1 / 20000` of
`1411200 / 4 / 75000 = 4.704`. -/
theorem C8_phase_continuity (fe : FloatEnv) (hacc : fe.Accurate) (iq : IQ_DATA)
    (samples : Int → ℚ) (d : ℚ) (hlen : 0 ≤ iq.len) (hd : |d| ≤ M_PI - 1 / 2 ^ 16)
    (hrange : ∀ k : Int, |pair_angle fe iq k| ≤ M_PI)
    (hstep : ∀ k : Int, 0 ≤ k → 2 * (k + 1) + 1 < iq.len →
      near_advances d (pair_angle fe iq k) (pair_angle fe iq (k + 1))) :
    (∀ n : Nat, 1 ≤ n → n < (fm_demodulate fe iq samples).freqs.length →
      ∃ f : ℚ, (fm_demodulate fe iq samples).freqs[n]? = some f ∧
        |f - (SDR_SAMPLE_RATE : ℚ) * d / (2 * M_PI)| ≤ 1) ∧
    (∀ m : Int, 1 ≤ m → m < iq.len / 64 →
      |(fm_demodulate fe iq samples).samples m -
        (SDR_SAMPLE_RATE : ℚ) * d / (2 * M_PI * (FREQ_DEVIATION : ℚ))| ≤ 1 / 20000) ∧
    (∀ (len c : Int) (s0 : Int → ℚ) (m : Int), 1 ≤ m → m < len / 64 →
      |(fm_demodulate (ieee_env diag_atan2f) ⟨tone_buf, len, c⟩ s0).samples m -
        1411200 / 4 / 75000| ≤ 1 / 20000 ∧
      (1411200 : ℚ) / 4 / 75000 = 4704 / 1000) := by
  obtain ⟨h1, h2⟩ := fm_demodulate_tone_near hacc iq samples d hlen hd hrange hstep
  refine ⟨h1, h2, ?_⟩
  intro len c s0 m hm1 hm2
  have hl : 0 ≤ (⟨tone_buf, len, c⟩ : IQ_DATA).len := by simp only; omega
  have := (fm_demodulate_tone_near (ieee_env_accurate diag_atan2f) ⟨tone_buf, len, c⟩ s0
    (M_PI / 2) hl M_PI_half_le (tone_buf_ieee_range len c)
    (fun k _ _ => tone_buf_ieee_advances len c k)).2 m hm1 hm2
  rw [show (SDR_SAMPLE_RATE : ℚ) * (M_PI / 2) / (2 * M_PI * (FREQ_DEVIATION : ℚ)) =
    1411200 / 4 / 75000 by
      norm_num [SDR_SAMPLE_RATE, DECIMATION_FACTOR, WAV_SAMPLE_RATE, FREQ_DEVIATION, M_PI]] at this
  exact ⟨this, by norm_num⟩

/-- Witness of C8: three groups of the 90-degree pattern in IEEE 754
arithmetic; the last sample is within `1 / 20000` of `4.704`. -/
theorem C8_phase_continuity_witness :
    |(fm_demodulate (ieee_env diag_atan2f) ⟨tone_buf, 192, 0⟩ (fun _ => 0)).samples 2 -
      4704 / 1000| ≤ 1 / 20000 := by
  have h := (C8_phase_continuity (ieee_env diag_atan2f) (ieee_env_accurate diag_atan2f)
    ⟨tone_buf, 192, 0⟩ (fun _ => 0) (M_PI / 2) (by decide) M_PI_half_le
    (tone_buf_ieee_range 192 0) (fun k _ _ => tone_buf_ieee_advances 192 0 k)).2.1 2
    (by decide) (by decide)
  rw [show (SDR_SAMPLE_RATE : ℚ) * (M_PI / 2) / (2 * M_PI * (FREQ_DEVIATION : ℚ)) =
    4704 / 1000 by
      norm_num [SDR_SAMPLE_RATE, DECIMATION_FACTOR, WAV_SAMPLE_RATE, FREQ_DEVIATION, M_PI]] at h
  exact h

/-! ## Lemmas on the encoder -/

theorem trunc_intCast (z : Int) : trunc (z : ℚ) = z := by
  unfold trunc
  split <;> simp

theorem trunc_mono {x y : ℚ} (h : x ≤ y) : trunc x ≤ trunc y := by
  unfold trunc
  split_ifs with hx hy hy
  · exact Int.floor_mono h
  · exact absurd (hx.trans h) hy
  · have h1 : ⌈x⌉ ≤ 0 := Int.ceil_le.mpr (by push_cast; linarith)
    have h2 : (0 : Int) ≤ ⌊y⌋ := Int.floor_nonneg.mpr hy
    omega
  · exact Int.ceil_mono h

theorem FloatEnv.Sound.rnd32_int {fe : FloatEnv} (h : fe.Sound) (z : Int) (hz : |z| ≤ 2 ^ 23) :
    fe.rnd32 (z : ℚ) = z := by
  have h2 : |2 * z| ≤ 2 ^ 24 := by
    rw [abs_mul]; norm_num
    have := abs_nonneg z
    norm_num at hz
    omega
  have := h.rnd32_half (2 * z) h2
  simpa using this

theorem int32_of_range {z : Int} (h1 : -2 ^ 31 ≤ z) (h2 : z < 2 ^ 31) : int32 z = z := by
  unfold int32
  norm_num at h1 h2 ⊢
  omega

theorem uint32_of_range {z : Int} (h1 : 0 ≤ z) (h2 : z < 2 ^ 32) : uint32 z = z := by
  unfold uint32
  exact Int.emod_eq_of_lt h1 h2

/-- The field `data_size` when `len * 16` does not overflow an `int`. -/
theorem wav_header_data_size (len : Int) (h0 : 0 ≤ len) (h1 : 16 * len ≤ 2 ^ 31 - 1) :
    (wav_header len).data_size = 2 * len := by
  have hd : (wav_header len).data_size =
      uint32 (Int.tdiv (int32 (int32 (len * uint16 1) * uint16 16)) 8) := rfl
  norm_num at h1
  rw [hd, show uint16 1 = 1 from rfl, show uint16 16 = 16 from rfl, mul_one,
    int32_of_range (z := len) (by norm_num; omega) (by norm_num; omega),
    int32_of_range (z := len * 16) (by norm_num; omega) (by norm_num; omega),
    Int.tdiv_eq_ediv (by omega) (by norm_num),
    uint32_of_range (by omega) (by norm_num; omega)]
  omega

/-! ## The encoder: claims C9 and C10 -/

/-- C10 (header correctness). For a payload of `len` samples with `0 ≤ len`
and `16 * len ≤ 2^31 - 1`, the header `wav_write` builds has
`data_size = 2 * len` and `overall_size = 36 + data_size`, and its four tags
are the 4-byte markers `RIFF`, `WAVE`, `fmt ` and `data`. -/
theorem C10_header (len : Int) (h0 : 0 ≤ len) (h1 : 16 * len ≤ 2 ^ 31 - 1) :
    (wav_header len).data_size = 2 * len ∧
    (wav_header len).overall_size = 36 + (wav_header len).data_size ∧
    (wav_header len).riff = "RIFF".toList ∧
    (wav_header len).wave = "WAVE".toList ∧
    (wav_header len).fmt_chunk_marker = "fmt ".toList ∧
    (wav_header len).data_chunk_header = "data".toList := by
  have hd : (wav_header len).data_size = 2 * len := wav_header_data_size len h0 h1
  refine ⟨hd, ?_, rfl, rfl, rfl, rfl⟩
  have ho : (wav_header len).overall_size =
      uint32 (uint32 (4 + uint32 (8 + uint32 16)) + uint32 (8 + (wav_header len).data_size)) :=
    rfl
  norm_num at h1
  rw [ho, hd, show uint32 16 = 16 from rfl, show uint32 (8 + 16) = 24 from rfl,
    show uint32 (4 + 24) = 28 from rfl,
    uint32_of_range (z := 8 + 2 * len) (by omega) (by norm_num; omega),
    uint32_of_range (z := 28 + (8 + 2 * len)) (by omega) (by norm_num; omega)]
  ring

/-- Witness of C10: the header of a payload of 44100 samples. -/
theorem C10_header_witness :
    (wav_header 44100).data_size = 88200 ∧ (wav_header 44100).overall_size = 88236 := by
  have h := C10_header 44100 (by decide) (by decide)
  exact ⟨h.1, h.2.1.trans (by rw [h.1]; decide)⟩

/-! ## Lemmas on the encoder: the byte stream -/

theorem le_bytes_length (w : Nat) (n : Int) : (le_bytes w n).length = w := by
  simp [le_bytes]

/-- Four little-endian bytes spell the number they were made from. -/
theorem le_value_le_bytes (n : Int) (h0 : 0 ≤ n) (h1 : n < 2 ^ 32) :
    le_value (le_bytes 4 n) = n := by
  have hr : List.range 4 = [0, 1, 2, 3] := rfl
  simp only [le_bytes, hr, List.map_cons, List.map_nil, le_value, List.foldr_cons,
    List.foldr_nil]
  norm_num at h1 ⊢
  rw [max_eq_left (by omega), max_eq_left (by omega), max_eq_left (by omega),
    max_eq_left (by omega)]
  omega

/-- The field `overall_size` when `len * 16` does not overflow an `int`. -/
theorem wav_header_overall_size (len : Int) (h0 : 0 ≤ len) (h1 : 16 * len ≤ 2 ^ 31 - 1) :
    (wav_header len).overall_size = 36 + 2 * len := by
  have hd := wav_header_data_size len h0 h1
  have ho : (wav_header len).overall_size =
      uint32 (uint32 (4 + uint32 (8 + uint32 16)) + uint32 (8 + (wav_header len).data_size)) :=
    rfl
  norm_num at h1
  rw [ho, hd, show uint32 16 = 16 from rfl, show uint32 (8 + 16) = 24 from rfl,
    show uint32 (4 + 24) = 28 from rfl,
    uint32_of_range (z := 8 + 2 * len) (by omega) (by norm_num; omega),
    uint32_of_range (z := 28 + (8 + 2 * len)) (by omega) (by norm_num; omega)]
  ring

/-- The 44 bytes of the header. -/
theorem header_bytes_wav_header (len : Int) (h0 : 0 ≤ len) (h1 : 16 * len ≤ 2 ^ 31 - 1) :
    header_bytes (wav_header len) =
      [82, 73, 70, 70] ++ le_bytes 4 (36 + 2 * len) ++
      [87, 65, 86, 69, 102, 109, 116, 32, 16, 0, 0, 0, 1, 0, 1, 0, 68, 172, 0, 0,
        136, 88, 1, 0, 2, 0, 16, 0, 100, 97, 116, 97] ++ le_bytes 4 (2 * len) := by
  have e1 : (wav_header len).riff.map Char.toNat = [82, 73, 70, 70] := rfl
  have e2 : (wav_header len).wave.map Char.toNat = [87, 65, 86, 69] := rfl
  have e3 : (wav_header len).fmt_chunk_marker.map Char.toNat = [102, 109, 116, 32] := rfl
  have e4 : le_bytes 4 (wav_header len).length_of_fmt = [16, 0, 0, 0] := rfl
  have e5 : le_bytes 2 (wav_header len).format_type = [1, 0] := rfl
  have e6 : le_bytes 2 (wav_header len).channels = [1, 0] := rfl
  have e7 : le_bytes 4 (wav_header len).sample_rate = [68, 172, 0, 0] := rfl
  have e8 : le_bytes 4 (wav_header len).byterate = [136, 88, 1, 0] := rfl
  have e9 : le_bytes 2 (wav_header len).block_align = [2, 0] := rfl
  have e10 : le_bytes 2 (wav_header len).bits_per_sample = [16, 0] := rfl
  have e11 : (wav_header len).data_chunk_header.map Char.toNat = [100, 97, 116, 97] := rfl
  simp only [header_bytes, e1, e2, e3, e4, e5, e6, e7, e8, e9, e10, e11,
    wav_header_overall_size len h0 h1, wav_header_data_size len h0 h1, List.append_assoc,
    List.cons_append, List.nil_append]

theorem pcm_bytes_length (pcm : List Int) : (pcm_bytes pcm).length = 2 * pcm.length := by
  induction pcm with
  | nil => rfl
  | cons v vs ih =>
    simp only [pcm_bytes, List.flatMap_cons, List.length_append, le_bytes_length,
      List.length_cons] at ih ⊢
    omega

theorem pcm_data_length (fe : FloatEnv) (samples : Int → ℚ) (len : Int) :
    (pcm_data fe samples len).length = len.toNat := by
  simp [pcm_data]

/-! ## The encoder: claims C11 and C12 -/

/-- C11 (format fields). Whatever the samples and `len`, the header `wav_write`
builds describes mono 16-bit PCM at the audio rate: `length_of_fmt = 16`,
`format_type = 1`, `channels = 1`, `sample_rate = 44100 = WAV_SAMPLE_RATE`,
`bits_per_sample = 16`, `byterate = 88200`, which is
`sample_rate * channels * bits_per_sample / 8`, and `block_align = 2`, which is
`channels * bits_per_sample / 8`. -/
theorem C11_format_fields (len : Int) :
    (wav_header len).length_of_fmt = 16 ∧
    (wav_header len).format_type = 1 ∧
    (wav_header len).channels = 1 ∧
    (wav_header len).sample_rate = 44100 ∧
    (wav_header len).sample_rate = WAV_SAMPLE_RATE ∧
    (wav_header len).bits_per_sample = 16 ∧
    (wav_header len).byterate = 88200 ∧
    (wav_header len).byterate = (wav_header len).sample_rate * (wav_header len).channels *
      (wav_header len).bits_per_sample / 8 ∧
    (wav_header len).block_align = 2 ∧
    (wav_header len).block_align =
      (wav_header len).channels * (wav_header len).bits_per_sample / 8 :=
  ⟨rfl, rfl, rfl, rfl, rfl, rfl, rfl, rfl, rfl, rfl⟩

/-- C12 (byte stream). For `0 ≤ len` with `16 * len ≤ 2^31 - 1`, when the file
opens and both writes succeed, the file `wav_write` leaves is the 44 bytes of
the packed header, fields in declaration order and little-endian, followed by
the `len` samples in input order, two little-endian bytes each: `44 + 2 * len`
bytes in all; `overall_size` is that total minus 8 and `data_size` is the
number of bytes after the header, and the four bytes of each field spell its
value. -/
theorem C12_byte_stream (fe : FloatEnv) (fs : FileOutcome) (samples : Int → ℚ) (len : Int)
    (h0 : 0 ≤ len) (h1 : 16 * len ≤ 2 ^ 31 - 1)
    (hio : fs.fopen_ok = true ∧ fs.header_ok = true ∧ fs.data_ok = true) :
    (wav_write fe fs samples len).2 =
      some (header_bytes (wav_header len) ++ pcm_bytes (pcm_data fe samples len)) ∧
    header_bytes (wav_header len) =
      [82, 73, 70, 70] ++ le_bytes 4 (wav_header len).overall_size ++
      [87, 65, 86, 69, 102, 109, 116, 32, 16, 0, 0, 0, 1, 0, 1, 0, 68, 172, 0, 0,
        136, 88, 1, 0, 2, 0, 16, 0, 100, 97, 116, 97] ++
      le_bytes 4 (wav_header len).data_size ∧
    (header_bytes (wav_header len)).length = 44 ∧
    pcm_bytes (pcm_data fe samples len) =
      (List.range len.toNat).flatMap
        (fun k : Nat => le_bytes 2 (uint16 (pcm_sample fe (samples k)))) ∧
    ((pcm_bytes (pcm_data fe samples len)).length : Int) = 2 * len ∧
    ((header_bytes (wav_header len) ++ pcm_bytes (pcm_data fe samples len)).length : Int) =
      44 + 2 * len ∧
    (wav_header len).overall_size =
      ((header_bytes (wav_header len) ++ pcm_bytes (pcm_data fe samples len)).length : Int) - 8 ∧
    (wav_header len).data_size = ((pcm_bytes (pcm_data fe samples len)).length : Int) ∧
    le_value (le_bytes 4 (wav_header len).overall_size) = (wav_header len).overall_size ∧
    le_value (le_bytes 4 (wav_header len).data_size) = (wav_header len).data_size := by
  obtain ⟨f1, f2, f3⟩ := hio
  have hd := wav_header_data_size len h0 h1
  have ho := wav_header_overall_size len h0 h1
  have hb := header_bytes_wav_header len h0 h1
  have hl : (header_bytes (wav_header len)).length = 44 := by
    rw [hb]; simp [le_bytes_length]
  have hp : ((pcm_bytes (pcm_data fe samples len)).length : Int) = 2 * len := by
    rw [pcm_bytes_length, pcm_data_length]
    push_cast
    rw [Int.toNat_of_nonneg h0]
  norm_num at h1
  refine ⟨?_, ?_, hl, ?_, hp, ?_, ?_, ?_, ?_, ?_⟩
  · simp [wav_write, f1, f2, f3]
  · rw [hb, hd, ho]
  · simp [pcm_bytes, pcm_data, List.flatMap_map]
  · rw [List.length_append, hl]; push_cast; rw [hp]
  · rw [List.length_append, hl, ho]; push_cast; rw [hp]; ring
  · rw [hd, hp]
  · rw [ho]; exact le_value_le_bytes _ (by omega) (by norm_num; omega)
  · rw [hd]; exact le_value_le_bytes _ (by omega) (by norm_num; omega)

/-- Witness of C12: the file of the payload `[0.0, 0.5]` in exact arithmetic
is 48 bytes long. -/
theorem C12_byte_stream_witness :
    ((header_bytes (wav_header 2) ++ pcm_bytes (pcm_data exact_env known_samples 2)).length :
      Int) = 48 :=
  (C12_byte_stream exact_env ⟨true, true, true⟩ known_samples 2 (by decide) (by decide)
    ⟨rfl, rfl, rfl⟩).2.2.2.2.2.1

/-! ## The encoder: claims C13 and C14 -/

theorem int16_range (z : Int) : -32768 ≤ int16 z ∧ int16 z ≤ 32767 := by
  unfold int16
  norm_num
  omega

theorem int16_congr (z : Int) : (int16 z - z) % 65536 = 0 := by
  unfold int16
  norm_num
  omega

theorem float_to_int16_of_int32 (x : ℚ) (h1 : -2 ^ 31 ≤ trunc x) (h2 : trunc x < 2 ^ 31) :
    float_to_int16 x = int16 (trunc x) := by
  simp only [float_to_int16, if_pos (And.intro h1 h2)]

theorem float_to_int16_beyond (x : ℚ) (h : ¬ (-2 ^ 31 ≤ trunc x ∧ trunc x < 2 ^ 31)) :
    float_to_int16 x = 0 := by
  simp only [float_to_int16, if_neg h]
  rfl

/-- C13, as stated, fails: in IEEE 754 arithmetic the sample `70000.0` has the
`float` product `2293690112`, which is not a 32-bit `int`; the value stored is
`0`, while the truncation reduced modulo `2^16` is `-4352`. -/
theorem C13_counterexample :
    trunc ((ieee_env diag_atan2f).rnd32 (70000 * 32767)) = 2293690112 ∧
    pcm_sample (ieee_env diag_atan2f) 70000 = 0 ∧
    (2293690112 + 32768) % 65536 - 32768 = (-4352 : Int) ∧
    pcm_sample (ieee_env diag_atan2f) 70000 ≠
      (trunc ((ieee_env diag_atan2f).rnd32 (70000 * 32767)) + 32768) % 65536 - 32768 := by
  have e : (ieee_env diag_atan2f).rnd32 (70000 * 32767) = ((2293690112 : Int) : ℚ) := by
    show rnd_bin 24 (-149) (70000 * 32767) = _
    rw [rnd_bin_eval 24 (-149) (70000 * 32767) 8 8959727 (by norm_num)
      (by norm_num [abs_of_pos]) (by norm_num [abs_of_pos]) (by norm_num [abs_lt])]
    norm_num
  have t : trunc ((ieee_env diag_atan2f).rnd32 (70000 * 32767)) = 2293690112 := by
    rw [e, trunc_intCast]
  have p : pcm_sample (ieee_env diag_atan2f) 70000 = 0 := by
    have hb : ¬ (-2 ^ 31 ≤ trunc ((ieee_env diag_atan2f).rnd32 (70000 * 32767)) ∧
        trunc ((ieee_env diag_atan2f).rnd32 (70000 * 32767)) < 2 ^ 31) := by
      rw [t]; decide
    exact float_to_int16_beyond _ hb
  refine ⟨t, p, by decide, ?_⟩
  rw [p, t]
  decide

/-- C13, amended. For a sample `s` outside `[-1, 1]`, in any floating-point
environment obeying the rounding laws, the `float` product `s * 32767`
truncates to a value `t` of magnitude at least `32767`. When `t` is a 32-bit
`int`, the value `wav_write` stores is `t` reduced modulo `2^16` into the signed
16-bit range, so it lies in `[-32768, 32767]` and differs from `t` by a multiple
of `65536`; nothing is clamped: one overflow upward is stored as `t - 65536`,
one downward as `t + 65536`, and the samples `2.0` and `-2.0` are stored as `-2`
and `2`. When `t` is not a 32-bit `int`, the value stored is `0`. -/
theorem C13_wraparound (fe : FloatEnv) (hfe : fe.Sound) (s : ℚ) (hs : s < -1 ∨ 1 < s) :
    (32767 ≤ trunc (fe.rnd32 (s * 32767)) ∨ trunc (fe.rnd32 (s * 32767)) ≤ -32767) ∧
    (-2 ^ 31 ≤ trunc (fe.rnd32 (s * 32767)) → trunc (fe.rnd32 (s * 32767)) < 2 ^ 31 →
      (-32768 ≤ pcm_sample fe s ∧ pcm_sample fe s ≤ 32767) ∧
      (pcm_sample fe s - trunc (fe.rnd32 (s * 32767))) % 65536 = 0 ∧
      pcm_sample fe s = (trunc (fe.rnd32 (s * 32767)) + 32768) % 65536 - 32768 ∧
      (32768 ≤ trunc (fe.rnd32 (s * 32767)) → trunc (fe.rnd32 (s * 32767)) < 98304 →
        pcm_sample fe s = trunc (fe.rnd32 (s * 32767)) - 65536) ∧
      (-98304 < trunc (fe.rnd32 (s * 32767)) → trunc (fe.rnd32 (s * 32767)) ≤ -32769 →
        pcm_sample fe s = trunc (fe.rnd32 (s * 32767)) + 65536)) ∧
    (¬ (-2 ^ 31 ≤ trunc (fe.rnd32 (s * 32767)) ∧ trunc (fe.rnd32 (s * 32767)) < 2 ^ 31) →
      pcm_sample fe s = 0) ∧
    (trunc (fe.rnd32 (2 * 32767)) = 65534 ∧ pcm_sample fe 2 = -2) ∧
    (trunc (fe.rnd32 (-2 * 32767)) = -65534 ∧ pcm_sample fe (-2) = 2) := by
  have r1 := hfe.rnd32_int 32767 (by norm_num)
  have r2 := hfe.rnd32_int (-32767) (by norm_num)
  have e1 : fe.rnd32 (2 * 32767) = ((65534 : Int) : ℚ) := by
    have := hfe.rnd32_int 65534 (by norm_num)
    rw [← this]; norm_num
  have e2 : fe.rnd32 (-2 * 32767) = ((-65534 : Int) : ℚ) := by
    have := hfe.rnd32_int (-65534) (by norm_num)
    rw [← this]; norm_num
  refine ⟨?_, ?_, fun h => float_to_int16_beyond _ h, ?_, ?_⟩
  · rcases hs with hs | hs
    · right
      have m := hfe.rnd32_mono (s * 32767) ((-32767 : Int) : ℚ) (by push_cast; linarith)
      rw [r2] at m
      have := trunc_mono m
      rwa [trunc_intCast] at this
    · left
      have m := hfe.rnd32_mono ((32767 : Int) : ℚ) (s * 32767) (by push_cast; linarith)
      rw [r1] at m
      have := trunc_mono m
      rwa [trunc_intCast] at this
  · intro h1 h2
    have e : pcm_sample fe s = int16 (trunc (fe.rnd32 (s * 32767))) :=
      float_to_int16_of_int32 _ h1 h2
    rw [e]
    refine ⟨int16_range _, int16_congr _, ?_, ?_, ?_⟩
    · simp only [int16]; norm_num
    · intro a b; simp only [int16]; norm_num; omega
    · intro a b; simp only [int16]; norm_num; omega
  · have h : pcm_sample fe 2 = int16 (trunc (fe.rnd32 (2 * 32767))) :=
      float_to_int16_of_int32 _ (by rw [e1, trunc_intCast]; decide)
        (by rw [e1, trunc_intCast]; decide)
    rw [h, e1, trunc_intCast]
    exact ⟨rfl, by decide⟩
  · have h : pcm_sample fe (-2) = int16 (trunc (fe.rnd32 (-2 * 32767))) :=
      float_to_int16_of_int32 _ (by rw [e2, trunc_intCast]; decide)
        (by rw [e2, trunc_intCast]; decide)
    rw [h, e2, trunc_intCast]
    exact ⟨rfl, by decide⟩

/-- Witness of the amended C13: in IEEE 754 arithmetic the sample `2.0`,
outside `[-1, 1]`, is stored as `-2`. -/
theorem C13_wraparound_witness :
    (32767 ≤ trunc ((ieee_env diag_atan2f).rnd32 (2 * 32767)) ∨
      trunc ((ieee_env diag_atan2f).rnd32 (2 * 32767)) ≤ -32767) ∧
    pcm_sample (ieee_env diag_atan2f) 2 = -2 :=
  have h := C13_wraparound (ieee_env diag_atan2f) (ieee_env_sound diag_atan2f) 2
    (Or.inr (by norm_num))
  ⟨h.1, h.2.2.2.1.2⟩

/-- C14, as stated, fails: in a run where the file opens and both `fwrite`
calls fail, `wav_write` returns `0`, the file is empty and `main` exits with
status `0`. -/
theorem C14_counterexample :
    (wav_write exact_env ⟨true, false, false⟩ known_samples 5).1 = 0 ∧
    (wav_write exact_env ⟨true, false, false⟩ known_samples 5).2 = some [] ∧
    (main exact_env failed_write_run).1 = 0 := by
  refine ⟨rfl, rfl, ?_⟩
  simp [main, failed_write_run, rtlsdr_listen, main_process, wav_write]

/-- C14, amended. `wav_write` returns `-1` when `fopen` fails and `0`
otherwise, whatever the two `fwrite` calls do, so its result is negative if and
only if the file could not be created. `main` exits with `1` when `argc < 2`,
when an allocation fails or when `rtlsdr_listen` fails (the device does not
open, a set-up call fails, or the read fails), with `2` when after that
`fopen` fails, and with `0` otherwise. -/
theorem C14_exit_status (fe : FloatEnv) (fs : FileOutcome) (samples : Int → ℚ) (len : Int)
    (run : Run) :
    (wav_write fe fs samples len).1 = (if fs.fopen_ok then 0 else -1) ∧
    ((wav_write fe fs samples len).1 < 0 ↔ fs.fopen_ok = false) ∧
    (main fe run).1 =
      (if run.argc < 2 then 1
       else if run.malloc_ok = false then 1
       else if run.drv.open_r < 0 ∨ run.drv.setup_r < 0 ∨ run.drv.read_r < 0 then 1
       else if run.fs.fopen_ok = false then 2
       else 0) := by
  refine ⟨?_, ?_, ?_⟩
  · cases h : fs.fopen_ok <;> simp [wav_write, h]
  · cases h : fs.fopen_ok <;> simp [wav_write, h]
  · by_cases h1 : run.argc < 2
    · simp [main, h1]
    cases h2 : run.malloc_ok
    · simp [main, h1, h2]
    by_cases h3 : run.drv.open_r < 0
    · simp [main, h1, h2, rtlsdr_listen, h3]
    by_cases h4 : run.drv.setup_r < 0
    · simp [main, h1, h2, rtlsdr_listen, h3, h4]
    by_cases h5 : run.drv.read_r < 0
    · simp [main, h1, h2, rtlsdr_listen, h3, h4, h5]
    cases h6 : run.fs.fopen_ok <;>
      simp [main, h1, h2, rtlsdr_listen, h3, h4, h5, main_process, wav_write, h6]

/-! ## Lemmas on the demodulator: the bytes it depends on -/

theorem fm_pairs_congr (fe : FloatEnv) (iq1 iq2 : IQ_DATA) (i : Int)
    (st : DemodState × ℚ) :
    ∀ m : Nat,
      (∀ j : Nat, j < m →
        iq1.buf (i * 2 * DECIMATION_FACTOR + 2 * j) =
          iq2.buf (i * 2 * DECIMATION_FACTOR + 2 * j) ∧
        iq1.buf (i * 2 * DECIMATION_FACTOR + 2 * j + 1) =
          iq2.buf (i * 2 * DECIMATION_FACTOR + 2 * j + 1)) →
      fm_pairs fe iq1 i m st = fm_pairs fe iq2 i m st := by
  intro m
  induction m with
  | zero => intro _; simp only [fm_pairs, List.range_zero, List.foldl_nil]
  | succ m ih =>
    intro h
    obtain ⟨h1, h2⟩ := h m (by omega)
    rw [fm_pairs_succ, fm_pairs_succ, ih (fun j hj => h j (by omega))]
    simp only [fm_pair, h1, h2]

theorem fm_group_congr (fe : FloatEnv) (iq1 iq2 : IQ_DATA) (i : Int) (st : DemodState)
    (h : ∀ j : Nat, j < 32 →
        iq1.buf (i * 2 * DECIMATION_FACTOR + 2 * j) =
          iq2.buf (i * 2 * DECIMATION_FACTOR + 2 * j) ∧
        iq1.buf (i * 2 * DECIMATION_FACTOR + 2 * j + 1) =
          iq2.buf (i * 2 * DECIMATION_FACTOR + 2 * j + 1)) :
    fm_group fe iq1 i st = fm_group fe iq2 i st := by
  have hp := fm_pairs_congr fe iq1 iq2 i (st, 0) 32 h
  rw [fm_group_eq, fm_group_eq, hp]

theorem fm_groups_congr (fe : FloatEnv) (iq1 iq2 : IQ_DATA) (st : DemodState) :
    ∀ g : Nat,
      (∀ k : Int, 0 ≤ k → k < 64 * g → iq1.buf k = iq2.buf k) →
      fm_groups fe iq1 g st = fm_groups fe iq2 g st := by
  intro g
  induction g with
  | zero => intro _; simp only [fm_groups, List.range_zero, List.foldl_nil]
  | succ g ih =>
    intro h
    have hg := fm_group_congr fe iq1 iq2 (g : Int) (fm_groups fe iq2 g st) (by
      intro j hj
      have e1 : (g : Int) * 2 * DECIMATION_FACTOR + 2 * j = 64 * g + 2 * j := by
        simp only [DECIMATION_FACTOR]; ring
      rw [e1]
      exact ⟨h _ (by omega) (by push_cast; omega), h _ (by omega) (by push_cast; omega)⟩)
    rw [fm_groups_succ, fm_groups_succ, ih (fun k h0 hk => h k h0 (by push_cast; omega)), hg]

/-- The demodulator depends on the bytes `0`, ..., `64 * floor(len / 64) - 1`
of the buffer only. -/
theorem fm_demodulate_congr (fe : FloatEnv) (iq1 iq2 : IQ_DATA) (samples : Int → ℚ)
    (hlen : iq1.len = iq2.len) (h0 : 0 ≤ iq2.len)
    (h : ∀ k : Int, 0 ≤ k → k < 64 * (iq2.len / 64) → iq1.buf k = iq2.buf k) :
    fm_demodulate fe iq1 samples = fm_demodulate fe iq2 samples := by
  rw [fm_demodulate_eq, fm_demodulate_eq, hlen, Int.tdiv_eq_ediv h0 (by decide)]
  apply fm_groups_congr
  intro k hk0 hk
  exact h k hk0 (by rw [Int.toNat_of_nonneg (by omega)] at hk; exact hk)

/-! ## The demodulator: claims C15 and C16 -/

/-- C15 (no read past the end). On a buffer of capacity `len ≥ 0`, a multiple
of 64 or not, every index of `iq->buf` that `fm_demodulate` reads lies in
`[0, 64 * floor(len / 64))`, hence in `[0, len)`; the trailing `len mod 64`
bytes are ignored: a buffer that differs in them only gives the same result. -/
theorem C15_reads_in_bounds (fe : FloatEnv) (iq : IQ_DATA) (samples : Int → ℚ)
    (hlen : 0 ≤ iq.len) :
    (∀ k ∈ (fm_demodulate fe iq samples).reads,
      0 ≤ k ∧ k < 64 * (iq.len / 64) ∧ k < iq.len) ∧
    64 * (iq.len / 64) = iq.len - iq.len % 64 ∧
    (∀ iq2 : IQ_DATA, iq2.len = iq.len →
      (∀ k : Int, 0 ≤ k → k < iq.len - iq.len % 64 → iq2.buf k = iq.buf k) →
      fm_demodulate fe iq2 samples = fm_demodulate fe iq samples) := by
  obtain ⟨h1, -, -, -⟩ := fm_demodulate_trace fe iq samples hlen
  refine ⟨?_, by omega, ?_⟩
  · intro k hk
    rw [h1, List.mem_map] at hk
    obtain ⟨n, hn, rfl⟩ := hk
    rw [List.mem_range] at hn
    omega
  · intro iq2 hl h
    exact fm_demodulate_congr fe iq2 iq samples hl hlen (fun k hk0 hk => h k hk0 (by omega))

/-- Witness of C15: a buffer of 130 bytes; only the bytes `0`, ..., `127` are
read, so changing the byte `129` does not change the result. -/
theorem C15_reads_in_bounds_witness :
    64 * ((130 : Int) / 64) = 130 - 130 % 64 ∧
    fm_demodulate exact_env ⟨fun k => if k = 129 then 7 else 0, 130, 0⟩ (fun _ => 0) =
      fm_demodulate exact_env ⟨fun _ => 0, 130, 0⟩ (fun _ => 0) :=
  have h := C15_reads_in_bounds exact_env ⟨fun _ => 0, 130, 0⟩ (fun _ => 0) (by decide)
  ⟨h.2.1, h.2.2 ⟨fun k => if k = 129 then 7 else 0, 130, 0⟩ rfl (fun k _ hk => by
    have hne : ¬ k = 129 := by
      have : (130 : Int) - 130 % 64 = 128 := by decide
      simp only at hk
      omega
    simp only [hne, if_false])⟩

theorem fm_fast_pairs_succ (fe : FloatEnv) (iq : IQ_DATA) (i : Int) (m : Nat)
    (st : FastState × ℚ) :
    fm_fast_pairs fe iq i (m + 1) st = fm_fast_pair fe iq i m (fm_fast_pairs fe iq i m st) := by
  simp [fm_fast_pairs, List.range_succ, List.foldl_append]

theorem fm_fast_groups_succ (fe : FloatEnv) (iq : IQ_DATA) (g : Nat) (st : FastState) :
    fm_fast_groups fe iq (g + 1) st = fm_fast_group fe iq g (fm_fast_groups fe iq g st) := by
  simp [fm_fast_groups, List.range_succ, List.foldl_append]

theorem fm_fast_group_eq (fe : FloatEnv) (iq : IQ_DATA) (i : Int) (st : FastState) :
    fm_fast_group fe iq i st =
      { (fm_fast_pairs fe iq i 32 (st, 0)).1 with
        samples := store (fm_fast_pairs fe iq i 32 (st, 0)).1.samples i
          (fe.rnd32 (fe.rnd32 ((fm_fast_pairs fe iq i 32 (st, 0)).2 / 32) / 75000))
        writes := (fm_fast_pairs fe iq i 32 (st, 0)).1.writes ++ [i] } := by
  have h : for_int 0 DECIMATION_FACTOR (fm_fast_pair fe iq i) (st, 0) =
      fm_fast_pairs fe iq i 32 (st, 0) := by
    rw [for_int_eq_foldl]
    simp [fm_fast_pairs, DECIMATION_FACTOR]
  simp only [fm_fast_group, h]
  simp [DECIMATION_FACTOR, FREQ_DEVIATION]

theorem fm_demodulate_fast_eq (fe : FloatEnv) (iq : IQ_DATA) (samples : Int → ℚ) :
    fm_demodulate_fast fe iq samples =
      fm_fast_groups fe iq (Int.tdiv iq.len 64).toNat
        { samples := samples, reads := [], writes := [] } := by
  unfold fm_demodulate_fast
  rw [for_int_eq_foldl]
  simp [fm_fast_groups, DECIMATION_FACTOR]

/-- The reads of the inner loop of the fast demodulator after `m` pairs. -/
theorem fm_fast_pairs_trace (fe : FloatEnv) (iq : IQ_DATA) (i : Int) (st : FastState × ℚ) :
    ∀ m : Nat,
      (fm_fast_pairs fe iq i m st).1.reads =
        st.1.reads ++ (List.range m).flatMap (fun j : Nat => fast_reads (32 * i + j)) ∧
      (fm_fast_pairs fe iq i m st).1.writes = st.1.writes ∧
      (fm_fast_pairs fe iq i m st).1.samples = st.1.samples := by
  intro m
  induction m with
  | zero => simp [fm_fast_pairs]
  | succ m ih =>
    obtain ⟨h1, h2, h3⟩ := ih
    rw [fm_fast_pairs_succ]
    refine ⟨?_, h2, h3⟩
    simp only [fm_fast_pair, h1, DECIMATION_FACTOR, List.range_succ, List.flatMap_append,
      List.flatMap_cons, List.flatMap_nil, List.append_nil, List.append_assoc, fast_reads]
    rw [show i * 2 * 32 + 2 * (m : Int) = 2 * (32 * i + m) by ring]

/-- The reads of the fast demodulator after `g` groups: the four indices of
each pair, pair after pair. -/
theorem fm_fast_groups_trace (fe : FloatEnv) (iq : IQ_DATA) (samples : Int → ℚ) :
    ∀ g : Nat,
      (fm_fast_groups fe iq g { samples := samples, reads := [], writes := [] }).reads =
        (List.range (32 * g)).flatMap (fun k : Nat => fast_reads k) ∧
      (fm_fast_groups fe iq g { samples := samples, reads := [], writes := [] }).writes =
        (List.range g).map (fun k : Nat => (k : Int)) := by
  intro g
  induction g with
  | zero => simp [fm_fast_groups]
  | succ g ih =>
    obtain ⟨h1, h2⟩ := ih
    obtain ⟨p1, p2, -⟩ := fm_fast_pairs_trace fe iq g
      (fm_fast_groups fe iq g { samples := samples, reads := [], writes := [] }, 0) 32
    rw [fm_fast_groups_succ, fm_fast_group_eq]
    simp only [p1, p2, h1, h2]
    refine ⟨?_, ?_⟩
    · rw [show 32 * (g + 1) = 32 * g + 32 by ring, List.range_add, List.flatMap_append,
        List.flatMap_map]
      congr 1
    · rw [List.range_succ, List.map_append]
      rfl

/-- The reads of the pairs after the first one lie in the buffer. -/
theorem fast_reads_succ_in_bounds (m : Nat) (k : Int) (hk : k ∈ fast_reads ((m + 1 : Nat) : Int)) :
    0 ≤ k ∧ k ≤ 2 * (m : Int) + 3 := by
  simp only [fast_reads, List.mem_cons, List.mem_singleton, List.not_mem_nil, or_false] at hk
  push_cast at hk
  omega

/-! ## The fast demodulator: claim C18 -/

/-- C18 (look-back of the fast variant). On a buffer with `len ≥ 64`,
`fm_demodulate_fast` reads, for each pair in turn, the indices `i_idx`,
`i_idx - 2`, `q_idx`, `q_idx - 2`. The look-back indices `i_idx - 2` and
`q_idx - 2` are negative if and only if `i = 0` and `j = 0`, where they are
`-2` and `-1`: the first four reads are `0`, `-2`, `1`, `-1`, and every later
read lies in `[0, len)`. -/
theorem C18_fast_lookback (fe : FloatEnv) (iq : IQ_DATA) (samples : Int → ℚ)
    (hlen : 64 ≤ iq.len) :
    (fm_demodulate_fast fe iq samples).reads =
      (List.range (32 * (iq.len / 64).toNat)).flatMap (fun k : Nat => fast_reads k) ∧
    (∀ i j : Int, 0 ≤ i → 0 ≤ j → j < DECIMATION_FACTOR →
      fast_reads (32 * i + j) =
        [i * 2 * DECIMATION_FACTOR + 2 * j, i * 2 * DECIMATION_FACTOR + 2 * j - 2,
          i * 2 * DECIMATION_FACTOR + 2 * j + 1, i * 2 * DECIMATION_FACTOR + 2 * j + 1 - 2] ∧
      (i * 2 * DECIMATION_FACTOR + 2 * j - 2 < 0 ↔ i = 0 ∧ j = 0) ∧
      (i * 2 * DECIMATION_FACTOR + 2 * j + 1 - 2 < 0 ↔ i = 0 ∧ j = 0)) ∧
    (fm_demodulate_fast fe iq samples).reads.take 4 = [0, -2, 1, -1] ∧
    (∀ k ∈ (fm_demodulate_fast fe iq samples).reads.drop 4, 0 ≤ k ∧ k < iq.len) := by
  have hr := (fm_fast_groups_trace fe iq samples (iq.len / 64).toNat).1
  rw [fm_demodulate_fast_eq, Int.tdiv_eq_ediv (by omega) (by decide)]
  have hG : (((iq.len / 64).toNat : Nat) : Int) = iq.len / 64 :=
    Int.toNat_of_nonneg (by omega)
  obtain ⟨n, hn⟩ : ∃ n : Nat, 32 * (iq.len / 64).toNat = n + 1 :=
    ⟨32 * (iq.len / 64).toNat - 1, by omega⟩
  have hsplit : (fm_fast_groups fe iq (iq.len / 64).toNat
      { samples := samples, reads := [], writes := [] }).reads =
      [0, -2, 1, -1] ++ (List.range n).flatMap (fun k : Nat => fast_reads ((k + 1 : Nat) : Int)) := by
    rw [hr, hn, List.range_succ_eq_map, List.flatMap_cons, List.flatMap_map]
    rfl
  refine ⟨hr, ?_, ?_, ?_⟩
  · intro i j hi hj hj32
    simp only [DECIMATION_FACTOR] at hj32 ⊢
    refine ⟨?_, by omega, by omega⟩
    simp only [fast_reads]
    rw [show 2 * (32 * i + j) = i * 2 * 32 + 2 * j by ring]
  · rw [hsplit]
    rfl
  · intro k hk
    rw [hsplit] at hk
    simp only [List.drop_append_eq_append_drop, List.length_cons, List.length_nil,
      List.drop_succ_cons, List.drop_nil, List.nil_append] at hk
    have hk2 : k ∈ (List.range n).flatMap (fun k : Nat => fast_reads ((k + 1 : Nat) : Int)) := by
      simpa using hk
    rw [List.mem_flatMap] at hk2
    obtain ⟨m, hm, hkm⟩ := hk2
    rw [List.mem_range] at hm
    have := fast_reads_succ_in_bounds m k hkm
    omega

/-- Witness of C18: a buffer of 64 bytes; the first four reads are `0`, `-2`,
`1`, `-1`. -/
theorem C18_fast_lookback_witness :
    (fm_demodulate_fast exact_env ⟨fun _ => 0, 64, 0⟩ (fun _ => 0)).reads.take 4 =
      [0, -2, 1, -1] :=
  (C18_fast_lookback exact_env ⟨fun _ => 0, 64, 0⟩ (fun _ => 0) (by decide)).2.2.1

/-! ## The program: claim C19 -/

/-- C19 (sizing consistency). For a duration `0 ≤ len_secs ≤ 760` the capacity
`main` gives the buffer is `len_secs * SDR_SAMPLE_RATE * 2 = len_secs * 2822400`
without overflow, and the number of samples `fm_demodulate` writes,
`floor(capacity / 64)`, equals `len_secs * WAV_SAMPLE_RATE`, the number of
floats allocated and the count passed to `wav_write`, which encodes as many.
For `len_secs = 761` the capacity expression exceeds `2^31 - 1`. -/
theorem C19_sizing (len_secs : Int) (h0 : 0 ≤ len_secs) (h1 : len_secs ≤ 760) :
    main_iq_len len_secs = len_secs * SDR_SAMPLE_RATE * 2 ∧
    main_iq_len len_secs = len_secs * 2822400 ∧
    main_nsamples len_secs = len_secs * WAV_SAMPLE_RATE ∧
    main_iq_len len_secs / 64 = main_nsamples len_secs ∧
    (∀ (fe : FloatEnv) (buf : Int → Nat) (c : Int) (samples : Int → ℚ),
      ((fm_demodulate fe ⟨buf, main_iq_len len_secs, c⟩ samples).writes.length : Int) =
        main_nsamples len_secs ∧
      ((pcm_data fe (fm_demodulate fe ⟨buf, main_iq_len len_secs, c⟩ samples).samples
        (main_nsamples len_secs)).length : Int) = main_nsamples len_secs) ∧
    760 * SDR_SAMPLE_RATE * 2 ≤ 2 ^ 31 - 1 ∧
    761 * SDR_SAMPLE_RATE * 2 > 2 ^ 31 - 1 := by
  have e1 : main_iq_len len_secs = len_secs * 2822400 := by
    simp only [main_iq_len, SDR_SAMPLE_RATE, DECIMATION_FACTOR, WAV_SAMPLE_RATE]
    rw [int32_of_range (z := len_secs * (32 * 44100)) (by norm_num; omega) (by norm_num; omega),
      int32_of_range (by norm_num; omega) (by norm_num; omega)]
    ring
  have e2 : main_nsamples len_secs = len_secs * 44100 := by
    simp only [main_nsamples, WAV_SAMPLE_RATE]
    rw [int32_of_range (by norm_num; omega) (by norm_num; omega)]
  refine ⟨?_, e1, ?_, ?_, ?_, by decide, by decide⟩
  · rw [e1]; simp only [SDR_SAMPLE_RATE, DECIMATION_FACTOR, WAV_SAMPLE_RATE]; ring
  · rw [e2]; rfl
  · rw [e1, e2]; omega
  · intro fe buf c samples
    obtain ⟨-, w, -, -⟩ := fm_demodulate_trace fe ⟨buf, main_iq_len len_secs, c⟩ samples
      (by simp only; rw [e1]; omega)
    refine ⟨?_, ?_⟩
    · rw [w, List.length_map, List.length_range]
      simp only
      rw [e1, e2]
      omega
    · rw [pcm_data_length, e2]
      omega

/-- Witness of C19: for the default 30 seconds the capacity is `84672000` bytes
and `1323000` samples are written. -/
theorem C19_sizing_witness :
    main_iq_len DEFAULT_LEN_SECS = 84672000 ∧ main_nsamples DEFAULT_LEN_SECS = 1323000 :=
  have h := C19_sizing DEFAULT_LEN_SECS (by decide) (by decide)
  ⟨h.2.1.trans (by decide), h.2.2.1.trans (by decide)⟩

end Fmwav
